import Mathlib

/-!
Verification development for the rdms storage engine core.

The Rust sources are shallowly embedded: u64 sequence numbers become `Nat`
(no mutation sequence ever reaches 2^64, and no claim exercises wrap-around),
`Result`/panics become `Except`/`Option`, and in-place mutation becomes
explicit state passing.  Generic type parameters `K`, `V`, `<V as Diff>::D`
stay generic; the `Diff`, `From` and `Into` trait methods are passed
explicitly as a `DiffFns` record.
-/

set_option autoImplicit false

namespace Rdms

/-- std::ops::Bound over u64 seqnos, as used throughout core.rs. -/
inductive RBound where
  | included : Nat → RBound
  | excluded : Nat → RBound
  | unbounded : RBound
deriving DecidableEq

/-- core.rs Cutoff: enumerated parameter to compaction. -/
inductive Cutoff where
  | mono : Cutoff
  | tombstone : RBound → Cutoff
  | lsm : RBound → Cutoff
deriving DecidableEq

/-- core.rs Cutoff::new_mono. -/
def Cutoff.newMono : Cutoff := .mono

/-- core.rs Cutoff::new_tombstone. -/
def Cutoff.newTombstone (b : RBound) : Cutoff := .tombstone b

/-- core.rs Cutoff::new_tombstone_empty, which the source builds as
Cutoff::Lsm(Bound::Excluded(u64::MIN)). -/
def Cutoff.newTombstoneEmpty : Cutoff := .lsm (.excluded 0)

/-- core.rs Cutoff::new_lsm. -/
def Cutoff.newLsm (b : RBound) : Cutoff := .lsm b

/-- core.rs Cutoff::new_lsm_empty. -/
def Cutoff.newLsmEmpty : Cutoff := .lsm (.excluded 0)

/-- Error kinds used by the embedded operations (error.rs payloads dropped). -/
inductive RdmsError where
  | invalidCAS : RdmsError
  | unExpectedFail : RdmsError
  | unReachable : RdmsError
  | mBlockExhausted : RdmsError
  | zBlockExhausted : RdmsError
deriving DecidableEq

/-- vlog.rs Value payload: Native or a Reference into the value log.
The Backup variant only points at other files and the source itself declares
it impossible in every modelled path, so it is omitted. -/
inductive VlogValue (V : Type) where
  | native : V → VlogValue V
  | reference : Nat → Nat → VlogValue V
deriving DecidableEq

/-- vlog.rs Delta payload, same shape carrying the diff type. -/
inductive VlogDelta (D : Type) where
  | native : D → VlogDelta D
  | reference : Nat → Nat → VlogDelta D
deriving DecidableEq

/-- The Diff trait contract of core.rs, passed explicitly:
diff computes new.diff(old), merge computes new.merge(delta) giving the old
value, ofV is the From V conversion used for delete-deltas and toV is the
From D conversion used when resurrecting after a tombstone. -/
structure DiffFns (V D : Type) where
  diff : V → V → D
  merge : V → D → V
  ofV : V → D
  toV : D → V

/-- core.rs Value: the current version of an entry, upsert or tombstone. -/
inductive CValue (V : Type) where
  | u : VlogValue V → Nat → CValue V
  | d : Nat → CValue V
deriving DecidableEq

/-- core.rs Delta: one historical version, upsert or tombstone. -/
inductive CDelta (D : Type) where
  | u : VlogDelta D → Nat → CDelta D
  | d : Nat → CDelta D
deriving DecidableEq

variable {K V D : Type}

/-- core.rs Value::to_seqno. -/
def CValue.toSeqno : CValue V → Nat
  | .u _ s => s
  | .d s => s

/-- core.rs Value::is_deleted. -/
def CValue.isDeleted : CValue V → Bool
  | .u _ _ => false
  | .d _ => true

/-- core.rs Value::is_reference. -/
def CValue.isReference : CValue V → Bool
  | .u (.reference _ _) _ => true
  | _ => false

/-- core.rs Value::to_native_value. -/
def CValue.toNativeValue : CValue V → Option V
  | .u (.native v) _ => some v
  | _ => none

/-- core.rs Delta::to_seqno. -/
def CDelta.toSeqno : CDelta D → Nat
  | .u _ s => s
  | .d s => s

/-- core.rs Delta::is_reference. -/
def CDelta.isReference : CDelta D → Bool
  | .u (.reference _ _) _ => true
  | _ => false

/-- core.rs Entry: key, current value and newest-first delta chain. -/
structure Entry (K V D : Type) where
  key : K
  value : CValue V
  deltas : List (CDelta D)
deriving DecidableEq

/-- core.rs Entry::to_seqno. -/
def Entry.toSeqno (e : Entry K V D) : Nat := e.value.toSeqno

/-- core.rs Entry::is_deleted. -/
def Entry.isDeleted (e : Entry K V D) : Bool := e.value.isDeleted

/-- Observation helper: the seqno of every version of the entry,
newest first (current value first, then the delta chain). -/
def Entry.versionSeqnos (e : Entry K V D) : List Nat :=
  e.toSeqno :: e.deltas.map CDelta.toSeqno

/-- core.rs Entry::purge - drop versions according to the cutoff.
Mirrors the source match arms in order, including the Included(0) and
Excluded(0) short-circuits of the Lsm arm. -/
def Entry.purge (e : Entry K V D) (cutoff : Cutoff) : Option (Entry K V D) :=
  let n := e.toSeqno
  match cutoff with
  | .mono =>
      if e.isDeleted then none else some { e with deltas := [] }
  | .tombstone b =>
      if e.isDeleted then
        match b with
        | .included c => if n ≤ c then none else some e
        | .excluded c => if n < c then none else some e
        | .unbounded => none
      else some e
  | .lsm b =>
      match b with
      | .included 0 => some e
      | .excluded 0 => some e
      | .unbounded => none
      | .included c =>
          if n ≤ c then none
          else some { e with deltas := e.deltas.takeWhile (fun dl => decide (dl.toSeqno > c)) }
      | .excluded c =>
          if n < c then none
          else some { e with deltas := e.deltas.takeWhile (fun dl => decide (dl.toSeqno ≥ c)) }

/-- core.rs next_value: reconstruct the previous version from the current
native value and one delta.  The source unwraps the native payload of the
delta, so a reference payload is a panic, modelled as none. -/
def nextValue (df : DiffFns V D) : Option V → CDelta D → Option (CValue V × Option V)
  | _, .d s => some (.d s, none)
  | none, .u (.native dd) s =>
      let nv := df.toV dd
      some (.u (.native nv) s, some nv)
  | some curval, .u (.native dd) s =>
      let nv := df.merge curval dd
      some (.u (.native nv) s, some nv)
  | _, .u (.reference _ _) _ => none

/-- core.rs VersionIter, remaining iterations: walk the delta chain,
stopping at the first reference delta, threading the current native value. -/
def versionsAux (df : DiffFns V D) : Option V → List (CDelta D) → List (CValue V)
  | _, [] => []
  | curval, dl :: rest =>
      if dl.isReference then []
      else
        match nextValue df curval dl with
        | some (v, c) => v :: versionsAux df c rest
        | none => []

/-- core.rs Entry::versions as the list of reconstructed version values,
newest first.  Every yielded Entry of the source carries the same key and an
empty delta list, so the value component is the whole observable content. -/
def Entry.versionsVals (df : DiffFns V D) (e : Entry K V D) : List (CValue V) :=
  if e.value.isReference then []
  else e.value :: versionsAux df e.value.toNativeValue e.deltas

/-- The done-check of the skip_till loop: the version seqno satisfies the
upper bound (false for Unbounded, which never reaches the loop). -/
def loopDone (nb : RBound) (s : Nat) : Bool :=
  match nb with
  | .included nn => decide (s ≤ nn)
  | .excluded nn => decide (s < nn)
  | .unbounded => false

/-- core.rs Entry::skip_till inner while-loop: pop deltas, rebuilding the
value, until the reconstructed version satisfies the upper bound.  Outer
none is the unreachable!() panic when the chain is exhausted, or the panic
of unwrapping a reference delta. -/
def skipTillLoop (df : DiffFns V D) :
    CValue V → List (CDelta D) → RBound → Option (CValue V × List (CDelta D))
  | _, [], _ => none
  | value, dl :: rest, nb =>
      match nextValue df value.toNativeValue dl with
      | none => none
      | some (v, _) =>
          if loopDone nb v.toSeqno then some (v, rest) else skipTillLoop df v rest nb

/-- core.rs Entry::skip_till.  The outer Option models panics inside the
source (never hit on native entries), the inner Option is the return value. -/
def Entry.skipTill (df : DiffFns V D) (e : Entry K V D) (ob nb : RBound) :
    Option (Option (Entry K V D)) :=
  let n := e.toSeqno
  let beforeRange : Bool :=
    match ob with
    | .included o => decide (n < o)
    | .excluded o => decide (n ≤ o)
    | .unbounded => false
  if beforeRange then some none
  else
    let o :=
      match e.deltas.getLast? with
      | some dl => dl.toSeqno
      | none => n
    match nb with
    | .included nn =>
        if o > nn then some none
        else if n ≤ nn then some (some e)
        else
          match skipTillLoop df e.value e.deltas (.included nn) with
          | some (v, rest) => some (some { e with value := v, deltas := rest })
          | none => none
    | .excluded nn =>
        if o ≥ nn then some none
        else if n < nn then some (some e)
        else
          match skipTillLoop df e.value e.deltas (.excluded nn) with
          | some (v, rest) => some (some { e with value := v, deltas := rest })
          | none => none
    | .unbounded => some (some e)

/-- core.rs Entry::filter_within: skip versions newer than the range, then
purge versions older than the range. -/
def Entry.filterWithin (df : DiffFns V D) (e : Entry K V D) (start stop : RBound) :
    Option (Option (Entry K V D)) :=
  match e.skipTill df start stop with
  | none => none
  | some none => some none
  | some (some entry) =>
      match start with
      | .included x => some (entry.purge (.lsm (.excluded x)))
      | .excluded x => some (entry.purge (.lsm (.included x)))
      | .unbounded => some (some entry)

/-- The start-bound arm of filter_within: purge versions older than the
requested range (Included x purges with Excluded x, Excluded x with
Included x, Unbounded keeps the entry). -/
def purgeStart (e2 : Entry K V D) (start : RBound) : Option (Entry K V D) :=
  match start with
  | .included x => e2.purge (.lsm (.excluded x))
  | .excluded x => e2.purge (.lsm (.included x))
  | .unbounded => some e2

/-- core.rs Entry::prepend_version_nolsm: overwrite the value. -/
def Entry.prependVersionNolsm (e nentry : Entry K V D) : Entry K V D :=
  { e with value := nentry.value }

/-- core.rs Entry::prepend_version_lsm: synthesize the delta representing
the previous value, push it at the front, then overwrite the value.  Err is
UnReachable for a reference-valued self; none models the panic of unwrapping
a reference-valued nentry.  The returned footprint delta of the source is
not modelled. -/
def Entry.prependVersionLsm (df : DiffFns V D) (e nentry : Entry K V D) :
    Option (Except RdmsError (Entry K V D)) :=
  match e.value with
  | .d s =>
      some (.ok { e with value := nentry.value, deltas := .d s :: e.deltas })
  | .u (.native v) s =>
      match nentry.value with
      | .d _ =>
          some (.ok { e with value := nentry.value,
                             deltas := .u (.native (df.ofV v)) s :: e.deltas })
      | .u (.native nv) _ =>
          some (.ok { e with value := nentry.value,
                             deltas := .u (.native (df.diff nv v)) s :: e.deltas })
      | .u (.reference _ _) _ => none
  | .u (.reference _ _) _ => some (.error .unReachable)

/-- core.rs Entry::prepend_version. -/
def Entry.prependVersion (df : DiffFns V D) (e nentry : Entry K V D) (lsm : Bool) :
    Option (Except RdmsError (Entry K V D)) :=
  if lsm then e.prependVersionLsm df nentry
  else some (.ok (e.prependVersionNolsm nentry))

/-- core.rs Entry::delete - the DELETE operation on an entry in lsm mode:
push a delta for the previous version and become a tombstone at seqno. -/
def Entry.delete (df : DiffFns V D) (e : Entry K V D) (seqno : Nat) :
    Except RdmsError (Entry K V D) :=
  match e.value with
  | .d s => .ok { e with value := .d seqno, deltas := .d s :: e.deltas }
  | .u (.native v) s =>
      .ok { e with value := .d seqno, deltas := .u (.native (df.ofV v)) s :: e.deltas }
  | .u (.reference _ _) _ => .error .unReachable

/-- core.rs Entry::validate_xmerge: collect the seqnos of self followed by
the seqnos of the older entry and reject unless strictly decreasing. -/
def Entry.validateXmerge (a b : Entry K V D) : Except RdmsError Unit :=
  let seqnos := (a.toSeqno :: a.deltas.map CDelta.toSeqno)
      ++ (b.toSeqno :: b.deltas.map CDelta.toSeqno)
  let fail := (seqnos.zip seqnos.tail).any (fun p => decide (p.1 ≤ p.2))
  if fail then .error .unExpectedFail else .ok ()

/-- core.rs Entry::versions materialised as full entries: each yielded item
shares the key and has an empty delta list. -/
def Entry.versionEntries (df : DiffFns V D) (e : Entry K V D) : List (Entry K V D) :=
  (e.versionsVals df).map (fun v => { key := e.key, value := v, deltas := [] })

/-- The for-loop of core.rs Entry::xmerge: prepend each version onto the
older entry, propagating errors and panics. -/
def xmergeFold (df : DiffFns V D) :
    Entry K V D → List (Entry K V D) → Option (Except RdmsError (Entry K V D))
  | b, [] => some (.ok b)
  | b, ne :: rest =>
      match b.prependVersion df ne true with
      | none => none
      | some (.error err) => some (.error err)
      | some (.ok b2) => xmergeFold df b2 rest

/-- core.rs Entry::xmerge: merge the version chains of two entries for the
same key; the newer entry is prepended, oldest version first, onto the older
one.  Equal head seqnos panic in the source (outer none); the debug-time
validation (compiled in for debug builds) is modelled as always on. -/
def Entry.xmerge (df : DiffFns V D) (self entry : Entry K V D) :
    Option (Except RdmsError (Entry K V D)) :=
  if self.toSeqno > entry.toSeqno then
    match self.validateXmerge entry with
    | .error err => some (.error err)
    | .ok _ => xmergeFold df entry ((self.versionEntries df).reverse)
  else if entry.toSeqno > self.toSeqno then
    match entry.validateXmerge self with
    | .error err => some (.error err)
    | .ok _ => xmergeFold df self ((entry.versionEntries df).reverse)
  else none

instance {E A : Type} [DecidableEq E] [DecidableEq A] : DecidableEq (Except E A) :=
  fun x y =>
    match x, y with
    | .error a, .error b =>
        if h : a = b then .isTrue (h ▸ rfl) else .isFalse (fun hh => h (by injection hh))
    | .ok a, .ok b =>
        if h : a = b then .isTrue (h ▸ rfl) else .isFalse (fun hh => h (by injection hh))
    | .error _, .ok _ => .isFalse (fun hh => Except.noConfusion hh)
    | .ok _, .error _ => .isFalse (fun hh => Except.noConfusion hh)

/-- Concrete Diff instance on integers used for witnesses: the delta simply
stores the old value, so diff new old = old and merge new d = d. -/
def intDiff : DiffFns Int Int :=
  { diff := fun _ o => o, merge := fun _ dd => dd, ofV := id, toV := id }

/-- Spec-side reading of bound satisfaction, quoted from the spec: Included n
is satisfied by s iff s ≤ n, Excluded n iff s < n, Unbounded always. -/
def boundSat (b : RBound) (s : Nat) : Bool :=
  match b with
  | .included n => decide (s ≤ n)
  | .excluded n => decide (s < n)
  | .unbounded => true

/-- Concrete entry whose single version has seqno 0 (constructible by
Entry::new with Value::new_upsert at seqno 0). -/
def entrySeqnoZero : Entry Int Int Int :=
  { key := 0, value := .u (.native 5) 0, deltas := [] }

/-- Big-endian bytes of a u64, as produced by to_be_bytes; taking the low
eight bytes realises the u64 truncation. -/
def toBeBytes8 (n : Nat) : List Nat :=
  [n / 2 ^ 56 % 256, n / 2 ^ 48 % 256, n / 2 ^ 40 % 256, n / 2 ^ 32 % 256,
   n / 2 ^ 24 % 256, n / 2 ^ 16 % 256, n / 2 ^ 8 % 256, n % 256]

/-- Big-endian bytes of a u32. -/
def toBeBytes4 (n : Nat) : List Nat :=
  [n / 2 ^ 24 % 256, n / 2 ^ 16 % 256, n / 2 ^ 8 % 256, n % 256]

/-- Big-endian integer from a byte list (from_be_bytes). -/
def fromBeBytes (bs : List Nat) : Nat :=
  bs.foldl (fun acc b => acc * 256 + b) 0

/-- vlog.rs Value::VALUE_FLAG = 0x1000000000000000 (bit 60). -/
def VALUE_FLAG : Nat := 0x1000000000000000

/-- vlog.rs Value::append_to on a native value: append an 8-byte big-endian
header of length-or-VALUE_FLAG followed by the encoded payload, with fpos
the file length before the write; returns the new file contents together
with the Reference fields (fpos, length).  The encoded payload bytes stand
for value.encode(buf). -/
def valueAppendTo (file payload : List Nat) : List Nat × Nat × Nat :=
  let fpos := file.length
  let length := payload.length
  let scratch := toBeBytes8 (length ||| VALUE_FLAG)
  (file ++ scratch ++ payload, fpos, length)

/-- vlog.rs Delta::append_to on a native delta: same layout except the
header is the bare length (flag bit clear). -/
def deltaAppendTo (file payload : List Nat) : List Nat × Nat × Nat :=
  let fpos := file.length
  let length := payload.length
  let scratch := toBeBytes8 length
  (file ++ scratch ++ payload, fpos, length)

/-- wal.rs Op: Set / SetCAS / Delete. -/
inductive WalOp (K V : Type) where
  | set : K → V → WalOp K V
  | setCAS : K → V → Nat → WalOp K V
  | delete : K → WalOp K V
deriving DecidableEq

/-- dlog_entry.rs entry content as consumed by replay: into_index_op
yields the index seqno and the op. -/
structure DEntry (K V : Type) where
  index : Nat
  op : WalOp K V
deriving DecidableEq

/-- Modelled from the spec: the dlog_journal.rs Batch container is not in
the sources; per the spec a batch carries its last_index and its logged
entries (into_active followed by into_entries). -/
structure WalBatch (K V : Type) where
  lastIndex : Option Nat
  entries : List (DEntry K V)
deriving DecidableEq

/-- Modelled from the spec: the dlog_journal.rs Journal container is not in
the sources; per the spec a journal knows whether it is cold (is_cold), its
last_index (to_last_index) and its batches (into_batches). -/
structure WalJournal (K V : Type) where
  cold : Bool
  lastIndex : Option Nat
  batches : List (WalBatch K V)
deriving DecidableEq

/-- One invocation of the user Replay handler. -/
inductive ReplayCall (K V : Type) where
  | setIndex : K → V → Nat → ReplayCall K V
  | setCasIndex : K → V → Nat → Nat → ReplayCall K V
  | deleteIndex : K → Nat → ReplayCall K V
deriving DecidableEq

/-- The dispatch arm of Wal::replay: Set, SetCAS and Delete map to
set_index, set_cas_index and delete_index with the original fields and the
entry index. -/
def dispatchEntry {K V : Type} (e : DEntry K V) : ReplayCall K V :=
  match e.op with
  | .set k v => .setIndex k v e.index
  | .setCAS k v c => .setCasIndex k v c e.index
  | .delete k => .deleteIndex k e.index

/-- The journal skip of Wal::replay: cold journals are skipped, and so is a
journal whose last_index is known and below the replay seqno. -/
def journalSkip {K V : Type} (seqno : Nat) (j : WalJournal K V) : Bool :=
  j.cold ||
    match j.lastIndex with
    | some i => decide (i < seqno)
    | none => false

/-- The batch skip of Wal::replay: a batch whose last_index is known and
below the replay seqno is skipped. -/
def batchSkip {K V : Type} (seqno : Nat) (b : WalBatch K V) : Bool :=
  match b.lastIndex with
  | some i => decide (i < seqno)
  | none => false

/-- wal.rs Wal::replay: iterate journals, skip cold ones and those whose
last_index is below seqno, then iterate their batches, skip batches whose
last_index is below seqno, and dispatch every entry of the remaining
batches to the Replay handler.  The result is the list of handler calls in
order. -/
def walReplayCalls {K V : Type} (journals : List (WalJournal K V)) (seqno : Nat) :
    List (ReplayCall K V) :=
  (journals.filter (fun j => !journalSkip seqno j)).flatMap fun j =>
    (j.batches.filter (fun b => !batchSkip seqno b)).flatMap fun b =>
      b.entries.map dispatchEntry

/-- robt_indx.rs MBlock::finalize / ZBlock::finalize block layout: the
recorded entry offsets are shifted by the header size adjust = 4 + 4*n, the
block is count (u32) followed by the shifted offsets (u32 each) followed by
the entry bytes, zero-padded to the block size. -/
def blockFinalize (offsets entriesBytes : List Nat) (blocksize : Nat) : List Nat :=
  let adjust := 4 + offsets.length * 4
  let block := toBeBytes4 offsets.length
      ++ (offsets.map (fun o => toBeBytes4 (o + adjust))).flatten
      ++ entriesBytes
  block ++ List.replicate (blocksize - block.length) 0

/-- robt_indx.rs MBlock::Decode / ZBlock::Decode state after new_decode. -/
structure BlockDecode where
  count : Nat
  adjust : Nat
  offsets : List Nat
  entries : List Nat
deriving DecidableEq

/-- robt_indx.rs new_decode: count from the first 4 bytes, adjust =
4 + count*4, raw offsets bytes block[4..adjust], entries block[adjust..]. -/
def blockNewDecode (block : List Nat) : BlockDecode :=
  let count := fromBeBytes (block.take 4)
  let adjust := 4 + count * 4
  { count := count, adjust := adjust,
    offsets := (block.drop 4).take (adjust - 4),
    entries := block.drop adjust }

/-- robt_indx.rs MBlock::to_entry offset fetch: the source slices
offsets[index..index + 4] (byte positions index to index+4), decodes it
big-endian and subtracts adjust to find the entry byte position inside
entries.  the subtraction is the usize subtraction offset - adjust, a panic
on underflow, which truncated Nat subtraction only under-reports; the
returned position being past the entries length models the slice panic of
entries[offset - adjust..]. -/
def BlockDecode.mblockToEntryStart (b : BlockDecode) (index : Nat) :
    Except RdmsError Nat :=
  if index < b.count then
    .ok (fromBeBytes ((b.offsets.drop index).take 4) - b.adjust)
  else .error .mBlockExhausted

/-- robt_indx.rs ZBlock::to_entry offset fetch - identical logic with the
ZBlockExhausted error. -/
def BlockDecode.zblockToEntryStart (b : BlockDecode) (index : Nat) :
    Except RdmsError Nat :=
  if index < b.count then
    .ok (fromBeBytes ((b.offsets.drop index).take 4) - b.adjust)
  else .error .zBlockExhausted

/-- The byte position inside the entries region at which the index-th entry
actually starts, per the block format finalize writes: the index-th u32 of
the offset table (bytes 4*index..4*index+4) minus adjust. -/
def BlockDecode.entryStartSpec (b : BlockDecode) (index : Nat) : Nat :=
  fromBeBytes ((b.offsets.drop (4 * index)).take 4) - b.adjust

/-- Concrete WAL content for the replay counterexample: one warm journal
with last_index 2 holding one batch with last_index 2 and two logged sets,
at indices 1 and 2. -/
def journalsC2 : List (WalJournal Int Int) :=
  [{ cold := false, lastIndex := some 2,
     batches := [{ lastIndex := some 2,
                   entries := [{ index := 1, op := .set 7 70 },
                               { index := 2, op := .set 8 80 }] }] }]

/-- Concrete finalized two-entry block for the to_entry offset analysis:
entry 0 occupies bytes 0-7 and entry 1 bytes 8-15 of the entries region, so
the recorded pre-adjust offsets are 0 and 8. -/
def blockC1 : List Nat :=
  blockFinalize [0, 8] (List.replicate 8 1 ++ List.replicate 8 2) 64

/-- Spec-side reading of the lower end of a seqno range: Included x admits
s ≥ x, Excluded x admits s > x, Unbounded admits everything. -/
def lowSat (b : RBound) (s : Nat) : Bool :=
  match b with
  | .included x => decide (x ≤ s)
  | .excluded x => decide (x < s)
  | .unbounded => true

/-- Spec-side reading of the upper end of a seqno range: Included x admits
s ≤ x, Excluded x admits s < x, Unbounded admits everything. -/
def highSat (b : RBound) (s : Nat) : Bool :=
  match b with
  | .included x => decide (s ≤ x)
  | .excluded x => decide (s < x)
  | .unbounded => true

/-- Concrete native entry with versions at seqnos 1 and 0, strictly
decreasing, used against filter_within. -/
def entryC5ce : Entry Int Int Int :=
  { key := 0, value := .u (.native 1) 1, deltas := [.u (.native 0) 0] }

/-- Concrete native entry with versions at seqnos 5, 4, 3, 2 used as
filter_within witness input. -/
def entryC5w : Entry Int Int Int :=
  { key := 0, value := .u (.native 5) 5,
    deltas := [.u (.native 4) 4, .d 3, .u (.native 2) 2] }

/-- Scenario F entry A: versions at seqnos 30, 25, 20 (native, intDiff). -/
def entryA : Entry Int Int Int :=
  { key := 1, value := .u (.native 300) 30,
    deltas := [.u (.native 250) 25, .u (.native 200) 20] }

/-- Scenario F entry B, same key: versions at seqnos 15, 10. -/
def entryB : Entry Int Int Int :=
  { key := 1, value := .u (.native 150) 15, deltas := [.u (.native 100) 10] }

/-- Modelled from the spec: llrb_node.rs is not among the sources; per §4.2
a node holds an Entry, left/right children and a colour bit (black), plus
the dirty flag used by MVCC.  leaf stands for the absent child (None). -/
inductive Tree (K V D : Type) where
  | leaf : Tree K V D
  | node : Entry K V D → Bool → Bool → Tree K V D → Tree K V D → Tree K V D
deriving DecidableEq

/-- Modelled from the spec: the is_red test of the included common file -
an absent node reads as black, a present node is red when its black bit
is off. -/
def Tree.isRed {K V D : Type} : Tree K V D → Bool
  | .leaf => false
  | .node _ black _ _ _ => !black

/-- Modelled from the spec: is_black, the negation of is_red. -/
def Tree.isBlack {K V D : Type} (t : Tree K V D) : Bool := !t.isRed

/-- Left child (left_deref of the source; leaf for None). -/
def Tree.left {K V D : Type} : Tree K V D → Tree K V D
  | .leaf => .leaf
  | .node _ _ _ l _ => l

/-- Right child (right_deref of the source; leaf for None). -/
def Tree.right {K V D : Type} : Tree K V D → Tree K V D
  | .leaf => .leaf
  | .node _ _ _ _ r => r

/-- Modelled from the spec: Node::set_black, used on the root after each
mutation (the root is forced black). -/
def Tree.setBlack {K V D : Type} : Tree K V D → Tree K V D
  | .leaf => .leaf
  | .node e _ d l r => .node e true d l r

/-- In-order entry list of the tree - the observation behind iter(). -/
def Tree.entries {K V D : Type} : Tree K V D → List (Entry K V D)
  | .leaf => []
  | .node e _ _ l r => l.entries ++ e :: r.entries

/-- is_none on the child option: true exactly for the absent node. -/
def Tree.isLeaf {K V D : Type} : Tree K V D → Bool
  | .leaf => true
  | .node _ _ _ _ _ => false

/-- Number of nodes, used to size the fuel of the non-structural delete
recursions. -/
def Tree.size {K V D : Type} : Tree K V D → Nat
  | .leaf => 0
  | .node _ _ _ l r => 1 + l.size + r.size

/-- The entry stored under a key, read off the in-order entry list. -/
def Tree.findKey {K V D : Type} [DecidableEq K] (t : Tree K V D) (k : K) :
    Option (Entry K V D) :=
  t.entries.find? (fun e => decide (e.key = k))

/-- Modelled from the spec: get(key) walks the tree by key comparison and
returns the entry at the key when present - tombstoned entries included.
This is also exactly the search path that upsert_cas and delete_lsm follow,
so it keys their specifications. -/
def Tree.searchKey {K V D : Type} [LinearOrder K] : Tree K V D → K → Option (Entry K V D)
  | .leaf, _ => none
  | .node e _ _ l r, k =>
      if k < e.key then l.searchKey k
      else if e.key < k then r.searchKey k
      else some e

/-- Modelled from the spec: Node::prepend_version delegates to
Entry::prepend_version; llrb.rs discards the returned footprint Result, so
on failure the entry is left unchanged (the panic of a reference-payload
new entry cannot arise: the tree only receives native new entries). -/
def Node.prependVersion {K V D : Type} (df : DiffFns V D) (e nentry : Entry K V D)
    (lsm : Bool) : Entry K V D :=
  match e.prependVersion df nentry lsm with
  | some (.ok e2) => e2
  | _ => e

/-- Modelled from the spec: Node::delete delegates to Entry::delete with
the result discarded, leaving the entry unchanged on failure. -/
def Node.delete {K V D : Type} (df : DiffFns V D) (e : Entry K V D) (seqno : Nat) :
    Entry K V D :=
  match e.delete df seqno with
  | .ok e2 => e2
  | .error _ => e

/-- Modelled from the spec: From Entry for Box Node - a fresh red node
with no children; the callers in llrb.rs clear the dirty flag right after. -/
def nodeFrom {K V D : Type} (e : Entry K V D) : Tree K V D :=
  .node e false false .leaf .leaf

namespace Llrb

variable {K V D : Type}

/-- llrb.rs Llrb::rotate_left.  The fall-through arm is the panic of
rotating a black or absent link; every call site guards with is_red. -/
def rotateLeft : Tree K V D → Tree K V D
  | .node e b d l (.node re false rd rl rr) => .node re b rd (.node e false d l rl) rr
  | t => t

/-- llrb.rs Llrb::rotate_right; fall-through as in rotate_left. -/
def rotateRight : Tree K V D → Tree K V D
  | .node e b d (.node le false ld ll lr) r => .node le b ld ll (.node e false d lr r)
  | t => t

/-- llrb.rs Llrb::flip: toggle the colours of the node and both children.
The fall-through arm is the unwrap panic on an absent child; call sites in
the 2-3 walk guard with is_red on both children. -/
def flip : Tree K V D → Tree K V D
  | .node e b d (.node le lb ld ll lr) (.node re rb rd rl rr) =>
      .node e (!b) d (.node le (!lb) ld ll lr) (.node re (!rb) rd rl rr)
  | t => t

/-- llrb.rs Llrb::walkdown_rot23 (identity). -/
def walkdownRot23 (t : Tree K V D) : Tree K V D := t

/-- llrb.rs Llrb::walkuprot_23. -/
def walkuprot23 (t : Tree K V D) : Tree K V D :=
  let t1 := if t.right.isRed && !t.left.isRed then rotateLeft t else t
  let t2 := if t1.left.isRed && t1.left.left.isRed then rotateRight t1 else t1
  if t2.left.isRed && t2.right.isRed then flip t2 else t2

/-- llrb.rs Llrb::fixup. -/
def fixup (t : Tree K V D) : Tree K V D :=
  let t1 := if t.right.isRed then rotateLeft t else t
  let t2 := if t1.left.isRed && t1.left.left.isRed then rotateRight t1 else t1
  if t2.left.isRed && t2.right.isRed then flip t2 else t2

/-- llrb.rs Llrb::move_red_left. -/
def moveRedLeft (t : Tree K V D) : Tree K V D :=
  let t1 := flip t
  if t1.right.left.isRed then
    let t2 :=
      match t1 with
      | .node e b d l r => Tree.node e b d l (rotateRight r)
      | .leaf => t1
    flip (rotateLeft t2)
  else t1

/-- llrb.rs Llrb::move_red_right. -/
def moveRedRight (t : Tree K V D) : Tree K V D :=
  let t1 := flip t
  if t1.left.left.isRed then flip (rotateRight t1) else t1

/-- llrb.rs Llrb::upsert: recursive insert-or-update along the key order,
rebalancing with walkuprot_23 on the way up; returns the new subtree and
the prior entry when the key was present. -/
def upsert [LinearOrder K] (df : DiffFns V D) :
    Tree K V D → Entry K V D → Bool → Tree K V D × Option (Entry K V D)
  | .leaf, nentry, _ => (nodeFrom nentry, none)
  | .node e b d l r, nentry, lsm =>
      if nentry.key < e.key then
        let res := upsert df l nentry lsm
        (walkuprot23 (.node e b d res.1 r), res.2)
      else if e.key < nentry.key then
        let res := upsert df r nentry lsm
        (walkuprot23 (.node e b d l res.1), res.2)
      else
        (walkuprot23 (.node (Node.prependVersion df e nentry lsm) b d l r), some e)

/-- llrb.rs Llrb::upsert_cas: like upsert but validating the CAS at the
located node - on a missing key any non-zero CAS is InvalidCAS; on a
deleted node a CAS that is neither 0 nor the node seqno is InvalidCAS; on
a live node a CAS different from the node seqno is InvalidCAS. -/
def upsertCas [LinearOrder K] (df : DiffFns V D) :
    Tree K V D → Entry K V D → Nat → Bool →
      Tree K V D × Option (Entry K V D) × Option RdmsError
  | .leaf, nentry, cas, _ =>
      if cas > 0 then (.leaf, none, some .invalidCAS)
      else (nodeFrom nentry, none, none)
  | .node e b d l r, nentry, cas, lsm =>
      if nentry.key < e.key then
        let res := upsertCas df l nentry cas lsm
        (walkuprot23 (.node e b d res.1 r), res.2.1, res.2.2)
      else if e.key < nentry.key then
        let res := upsertCas df r nentry cas lsm
        (walkuprot23 (.node e b d l res.1), res.2.1, res.2.2)
      else if e.isDeleted && cas ≠ 0 && cas ≠ e.toSeqno then
        (walkuprot23 (.node e b d l r), none, some .invalidCAS)
      else if !e.isDeleted && cas ≠ e.toSeqno then
        (walkuprot23 (.node e b d l r), none, some .invalidCAS)
      else
        (walkuprot23 (.node (Node.prependVersion df e nentry lsm) b d l r), some e, none)

/-- llrb.rs Llrb::delete_lsm: search by key; on a missing key insert a
fresh tombstone node (Entry::new with Value::new_delete, then
node.delete(seqno)); on a live node mark it deleted; on an already deleted
node leave it untouched.  Returns the prior entry when the key was found. -/
def deleteLsm [LinearOrder K] (df : DiffFns V D) :
    Tree K V D → K → Nat → Tree K V D × Option (Entry K V D)
  | .leaf, key, seqno =>
      let ne : Entry K V D := { key := key, value := .d seqno, deltas := [] }
      let ne := Node.delete df ne seqno
      (Tree.node ne false false .leaf .leaf, none)
  | .node e b d l r, key, seqno =>
      if key < e.key then
        let res := deleteLsm df l key seqno
        (walkuprot23 (.node e b d res.1 r), res.2)
      else if e.key < key then
        let res := deleteLsm df r key seqno
        (walkuprot23 (.node e b d l res.1), res.2)
      else
        let e2 := if !e.isDeleted then Node.delete df e seqno else e
        (walkuprot23 (.node e2 b d l r), some e)

/-- llrb.rs Llrb::delete_min, fuelled: the recursion descends into the
left child of the move_red_left-transformed node, which is not a
structural subterm; the fuel (at least the tree size plus one at the call
sites) only runs out where the source would not terminate.  Returns the
remaining subtree and the unlinked minimum node (leaf when absent). -/
def deleteMin : Nat → Tree K V D → Option (Tree K V D × Tree K V D)
  | 0, _ => none
  | _ + 1, .leaf => some (.leaf, .leaf)
  | fuel + 1, .node e b d l r =>
      match l with
      | .leaf => some (.leaf, .node e b d .leaf r)
      | _ =>
          let t :=
            if !l.isRed && !l.left.isRed then moveRedLeft (.node e b d l r)
            else (.node e b d l r)
          match t with
          | .leaf => none
          | .node e2 b2 d2 l2 r2 =>
              match deleteMin fuel l2 with
              | none => none
              | some (left2, old) => some (fixup (.node e2 b2 d2 left2 r2), old)

/-- llrb.rs Llrb::do_delete (the non-lsm path), fuelled like delete_min.
none models the panics of the source (res_node None after delete_min)
and fuel exhaustion; with fuel above the tree size the source behaviour is
reproduced.  Modelled from the spec where llrb_node.rs is involved:
clone_detach copies the unlinked node without its children. -/
def doDelete [LinearOrder K] : Nat → Tree K V D → K →
    Option (Tree K V D × Option (Entry K V D))
  | 0, _, _ => none
  | _ + 1, .leaf, _ => some (.leaf, none)
  | fuel + 1, .node e b d l r, key =>
      if key < e.key then
        match l with
        | .leaf => some (.node e b d l r, none)
        | _ =>
            let t :=
              if !l.isRed && !l.left.isRed then moveRedLeft (.node e b d l r)
              else (.node e b d l r)
            match t with
            | .leaf => none
            | .node e2 b2 d2 l2 r2 =>
                match doDelete fuel l2 key with
                | none => none
                | some (left2, entry) => some (fixup (.node e2 b2 d2 left2 r2), entry)
      else
        let t := if l.isRed then rotateRight (.node e b d l r) else (.node e b d l r)
        match t with
        | .leaf => none
        | .node e1 b1 d1 l1 r1 =>
            if !(decide (e1.key < key)) && r1.isLeaf then some (.leaf, some e1)
            else
              let t2 :=
                if (!r1.isLeaf && !r1.isRed) && !r1.left.isRed then
                  moveRedRight (.node e1 b1 d1 l1 r1)
                else (.node e1 b1 d1 l1 r1)
              match t2 with
              | .leaf => none
              | .node e3 b3 d3 l3 r3 =>
                  if ¬ e3.key < key then
                    match deleteMin fuel r3 with
                    | none => none
                    | some (right4, old) =>
                        match old with
                        | .leaf => none
                        | .node oe _ _ _ _ =>
                            some (fixup (.node oe b3 false l3 right4), some e3)
                  else
                    match doDelete fuel r3 key with
                    | none => none
                    | some (right4, entry) =>
                        some (fixup (.node e3 b3 d3 l3 right4), entry)

end Llrb

/-- llrb.rs Llrb: name, lsm flag, root, current seqno and entry count. -/
structure Llrb (K V D : Type) where
  name : String
  lsm : Bool
  root : Tree K V D
  seqno : Nat
  nCount : Nat
deriving DecidableEq

/-- llrb.rs Llrb::new - non-lsm, empty, seqno 0. -/
def Llrb.new {K V D : Type} (name : String) : Llrb K V D :=
  { name := name, lsm := false, root := .leaf, seqno := 0, nCount := 0 }

/-- llrb.rs Llrb::new_lsm. -/
def Llrb.newLsm {K V D : Type} (name : String) : Llrb K V D :=
  { name := name, lsm := true, root := .leaf, seqno := 0, nCount := 0 }

/-- llrb.rs Llrb::get_seqno. -/
def Llrb.getSeqno {K V D : Type} (z : Llrb K V D) : Nat := z.seqno

/-- llrb.rs Llrb::set: upsert a fresh native entry at the next seqno, force
the root black, commit the seqno and bump the count on a fresh create. -/
def Llrb.set {K V D : Type} [LinearOrder K] (df : DiffFns V D) (z : Llrb K V D)
    (key : K) (value : V) : Llrb K V D × Option (Entry K V D) :=
  let seqno := z.seqno + 1
  let newEntry : Entry K V D := { key := key, value := .u (.native value) seqno, deltas := [] }
  let res := Llrb.upsert df z.root newEntry z.lsm
  ({ z with root := res.1.setBlack, seqno := seqno,
             nCount := if res.2.isNone then z.nCount + 1 else z.nCount }, res.2)

/-- llrb.rs Llrb::set_cas: like set but through upsert_cas; on error the
(rebalanced) root is stored but the seqno and count are left unchanged. -/
def Llrb.setCas {K V D : Type} [LinearOrder K] (df : DiffFns V D) (z : Llrb K V D)
    (key : K) (value : V) (cas : Nat) :
    Llrb K V D × Except RdmsError (Option (Entry K V D)) :=
  let seqno := z.seqno + 1
  let newEntry : Entry K V D := { key := key, value := .u (.native value) seqno, deltas := [] }
  match Llrb.upsertCas df z.root newEntry cas z.lsm with
  | (root, _, some err) => ({ z with root := root }, .error err)
  | (root, entry, none) =>
      ({ z with root := root.setBlack, seqno := seqno,
                nCount := if entry.isNone then z.nCount + 1 else z.nCount }, .ok entry)

/-- llrb.rs Llrb::delete.  In lsm mode: tombstone semantics - a missing key
creates a tombstone and advances seqno and count, a live entry is marked
deleted and advances the seqno, an already-deleted entry is returned
unchanged with the seqno untouched.  In non-lsm mode the entry is removed
from the tree and the seqno always advances; the outer Option models the
do_delete panics. -/
def Llrb.deleteOp {K V D : Type} [LinearOrder K] (df : DiffFns V D) (z : Llrb K V D)
    (key : K) : Option (Llrb K V D × Option (Entry K V D)) :=
  let seqno := z.seqno + 1
  if z.lsm then
    let res := Llrb.deleteLsm df z.root key seqno
    let root := res.1.setBlack
    match res.2 with
    | none => some ({ z with root := root, nCount := z.nCount + 1, seqno := seqno }, none)
    | some e =>
        if !e.isDeleted then some ({ z with root := root, seqno := seqno }, some e)
        else some ({ z with root := root }, some e)
  else
    match Llrb.doDelete (z.root.size + 1) z.root key with
    | none => none
    | some (root, entry) =>
        some ({ z with root := root.setBlack,
                       nCount := if entry.isSome then z.nCount - 1 else z.nCount,
                       seqno := seqno }, entry)

/-- The CAS validation of llrb.rs Llrb::upsert_cas at the located node, as
one boolean: a deleted node rejects a CAS that is neither 0 nor the node
seqno; a live node rejects a CAS different from the node seqno. -/
def casInvalid {K V D : Type} (e : Entry K V D) (cas : Nat) : Bool :=
  (e.isDeleted && decide (cas ≠ 0) && decide (cas ≠ e.toSeqno)) ||
  (!e.isDeleted && decide (cas ≠ e.toSeqno))

/-- The full CAS validation of upsert_cas keyed on the search result: on a
missing key any positive CAS is rejected (the None arm of the source);
on a located node casInvalid decides. -/
def casRejects {K V D : Type} : Option (Entry K V D) → Nat → Bool
  | none, cas => decide (cas > 0)
  | some e, cas => casInvalid e cas

/-- The shape of the pre-mutation entry list around the located position:
on a missing key the two parts are adjacent, else the located entry sits
between them. -/
def priorDecomp {K V D : Type} :
    Option (Entry K V D) → List (Entry K V D) → List (Entry K V D) → List (Entry K V D)
  | none, pre, post => pre ++ post
  | some e, pre, post => pre ++ e :: post

/-- The entry upsert_cas stores at the located position: the new entry on a
create, else the located entry with the new version prepended. -/
def updatedEntry {K V D : Type} (df : DiffFns V D) :
    Option (Entry K V D) → Entry K V D → Bool → Entry K V D
  | none, ne, _ => ne
  | some e, ne, lsm => Node.prependVersion df e ne lsm

/-- The tombstone entry the missing-key arm of llrb.rs Llrb::delete_lsm
creates: a fresh deleted entry at seqno, passed through Node::delete. -/
def tombstoneOf {K V D : Type} (df : DiffFns V D) (k : K) (s : Nat) : Entry K V D :=
  Node.delete df { key := k, value := .d s, deltas := [] } s

/-- A live single-version entry, key 1 value 100 at seqno 1. -/
def entryC7 : Entry Nat Int Int := { key := 1, value := .u (.native 100) 1, deltas := [] }

/-- An lsm index holding only entryC7: new_lsm followed by set(1,100). -/
def zC7 : Llrb Nat Int Int := (Llrb.set intDiff (Llrb.newLsm "t") 1 100).1

/-- entryC7 after delete at seqno 2: a tombstone at 2 with the old value
pushed down as a delta. -/
def entryC7d : Entry Nat Int Int :=
  { key := 1, value := .d 2, deltas := [.u (.native 100) 1] }

/-- The index zC7 after delete(1): one tombstoned entry, seqno 2. -/
def zC7d : Llrb Nat Int Int :=
  { name := "t", lsm := true, root := .node entryC7d true false .leaf .leaf,
    seqno := 2, nCount := 1 }

-- ===== definitions continue below; theorems follow the last definition =====

section Lemmas

variable {α : Type}

/-- On a strictly-decreasing-measure list, a filter by an upward-closed
predicate on the measure is a prefix. -/
theorem filter_eq_takeWhile_of_upClosed (f : α → Nat) (p : Nat → Bool)
    (hp : ∀ m n : Nat, m ≤ n → p m = true → p n = true) :
    ∀ l : List α, (l.map f).Pairwise (· > ·) →
      l.filter (fun a => p (f a)) = l.takeWhile (fun a => p (f a)) := by
  intro l
  induction l with
  | nil => intro _; rfl
  | cons a l ih =>
      intro hsort
      simp only [List.map_cons, List.pairwise_cons] at hsort
      obtain ⟨hhead, htail⟩ := hsort
      by_cases hpa : p (f a) = true
      · simp [List.filter_cons, List.takeWhile_cons, hpa, ih htail]
      · have hnil : l.filter (fun a => p (f a)) = [] := by
          rw [List.filter_eq_nil_iff]
          intro x hx
          simp only [Bool.not_eq_true]
          by_contra hcontra
          simp only [Bool.not_eq_false] at hcontra
          have hfx : f x < f a := hhead (f x) (List.mem_map_of_mem f hx)
          exact hpa (hp (f x) (f a) (Nat.le_of_lt hfx) hcontra)
        simp [List.filter_cons, List.takeWhile_cons, hpa, hnil]

/-- On a strictly-decreasing-measure list, dropping the prefix that fails a
downward-closed predicate gives exactly the filter by that predicate. -/
theorem dropWhile_not_eq_filter_of_downClosed (f : α → Nat) (q : Nat → Bool)
    (hq : ∀ m n : Nat, m ≤ n → q n = true → q m = true) :
    ∀ l : List α, (l.map f).Pairwise (· > ·) →
      l.dropWhile (fun a => !q (f a)) = l.filter (fun a => q (f a)) := by
  intro l
  induction l with
  | nil => intro _; rfl
  | cons a l ih =>
      intro hsort
      simp only [List.map_cons, List.pairwise_cons] at hsort
      obtain ⟨hhead, htail⟩ := hsort
      by_cases hqa : q (f a) = true
      · have hall : l.filter (fun a => q (f a)) = l := by
          rw [List.filter_eq_self]
          intro x hx
          have hfx : f x < f a := hhead (f x) (List.mem_map_of_mem f hx)
          exact hq (f x) (f a) (Nat.le_of_lt hfx) hqa
        simp [List.dropWhile_cons, List.filter_cons, hqa, hall]
      · simp [List.dropWhile_cons, List.filter_cons, hqa, ih htail]

/-- The head of a list whose measure is strictly decreasing bounds every
member of the tail strictly from above. -/
theorem head_max_of_pairwise_gt (f : α → Nat) (a : α) (l : List α)
    (hsort : ((a :: l).map f).Pairwise (· > ·)) :
    ∀ x ∈ l, f x < f a := by
  simp only [List.map_cons, List.pairwise_cons] at hsort
  intro x hx
  exact hsort.1 (f x) (List.mem_map_of_mem f hx)

/-- The pair formed at the junction of two concatenated lists is one of the
adjacent pairs scanned by validate_xmerge. -/
theorem junction_mem_zip_tail (l1 : List Nat) (x y : Nat) (l2 : List Nat) :
    l1.getLast? = some x →
    (x, y) ∈ (l1 ++ y :: l2).zip (l1 ++ y :: l2).tail := by
  induction l1 with
  | nil => intro h; simp at h
  | cons a l ih =>
      intro h
      cases l with
      | nil =>
          have hx : a = x := by
            simpa using h
          subst hx
          simp [List.zip_cons_cons]
      | cons c l2' =>
          have h2 : (c :: l2').getLast? = some x := by
            rw [List.getLast?_cons_cons] at h
            exact h
          have := ih h2
          simpa [List.cons_append, List.zip_cons_cons] using Or.inr this

end Lemmas

section VersionLemmas

variable {K V D : Type}

/-- On a non-reference delta, next_value succeeds, produces a version
carrying the delta seqno, never a reference, and its threaded current value
is the native value of the produced version. -/
theorem nextValue_native (df : DiffFns V D) (cur : Option V) (dl : CDelta D)
    (h : dl.isReference = false) :
    ∃ v, nextValue df cur dl = some (v, v.toNativeValue) ∧
      v.toSeqno = dl.toSeqno ∧ v.isReference = false := by
  cases dl with
  | d s =>
      cases cur with
      | none => exact ⟨.d s, rfl, rfl, rfl⟩
      | some c => exact ⟨.d s, rfl, rfl, rfl⟩
  | u pay s =>
      cases pay with
      | native dd =>
          cases cur with
          | none => exact ⟨.u (.native (df.toV dd)) s, rfl, rfl, rfl⟩
          | some c => exact ⟨.u (.native (df.merge c dd)) s, rfl, rfl, rfl⟩
      | reference fp ln => simp [CDelta.isReference] at h

/-- Unrolling the version iterator one step on a non-reference delta. -/
theorem versionsAux_cons_native (df : DiffFns V D) (cur : Option V) (dl : CDelta D)
    (rest : List (CDelta D)) (h : dl.isReference = false) :
    ∃ v, nextValue df cur dl = some (v, v.toNativeValue) ∧
      versionsAux df cur (dl :: rest) = v :: versionsAux df v.toNativeValue rest ∧
      v.toSeqno = dl.toSeqno ∧ v.isReference = false := by
  obtain ⟨v, hnv, hs, hr⟩ := nextValue_native df cur dl h
  refine ⟨v, hnv, ?_, hs, hr⟩
  simp [versionsAux, h, hnv]

/-- On a reference-free chain the version iterator reproduces the delta
seqnos. -/
theorem versionsAux_seqnos (df : DiffFns V D) :
    ∀ (ds : List (CDelta D)) (cur : Option V),
      (∀ dl ∈ ds, dl.isReference = false) →
      (versionsAux df cur ds).map CValue.toSeqno = ds.map CDelta.toSeqno := by
  intro ds
  induction ds with
  | nil => intro cur _; rfl
  | cons dl rest ih =>
      intro cur hnd
      obtain ⟨v, hnv, hunroll, hs, hr⟩ :=
        versionsAux_cons_native df cur dl rest (hnd dl (by simp))
      rw [hunroll]
      simp only [List.map_cons, hs]
      rw [ih _ (fun x hx => hnd x (by simp [hx]))]

/-- On a reference-free chain the version iterator commutes with a seqno
take-while on the deltas. -/
theorem versionsAux_takeWhile (df : DiffFns V D) (g : Nat → Bool) :
    ∀ (ds : List (CDelta D)) (cur : Option V),
      (∀ dl ∈ ds, dl.isReference = false) →
      versionsAux df cur (ds.takeWhile (fun dl => g dl.toSeqno))
        = (versionsAux df cur ds).takeWhile (fun v => g v.toSeqno) := by
  intro ds
  induction ds with
  | nil => intro cur _; rfl
  | cons dl rest ih =>
      intro cur hnd
      obtain ⟨v, hnv, hunroll, hs, hr⟩ :=
        versionsAux_cons_native df cur dl rest (hnd dl (by simp))
      by_cases hg : g dl.toSeqno = true
      · rw [List.takeWhile_cons]
        simp only [hg, if_true]
        obtain ⟨v2, hnv2, hunroll2, hs2, hr2⟩ :=
          versionsAux_cons_native df cur dl (rest.takeWhile (fun dl => g dl.toSeqno))
            (hnd dl (by simp))
        rw [hnv] at hnv2
        injection hnv2 with hv2
        injection hv2 with hv2 _
        subst hv2
        rw [hunroll2, hunroll]
        rw [List.takeWhile_cons]
        simp only [hs, hg, if_true]
        rw [ih _ (fun x hx => hnd x (by simp [hx]))]
      · rw [List.takeWhile_cons]
        simp only [hg, if_false]
        rw [hunroll, List.takeWhile_cons]
        simp only [hs, hg, if_false]
        rfl

/-- The versions list of a reference-free entry: headed by the current
value, with the delta seqnos following. -/
theorem versionsVals_eq (df : DiffFns V D) (e : Entry K V D)
    (hnr : e.value.isReference = false) :
    e.versionsVals df = e.value :: versionsAux df e.value.toNativeValue e.deltas := by
  simp [Entry.versionsVals, hnr]

/-- The version seqnos of a reference-free entry are the mapped seqnos of
its versions list. -/
theorem versionsVals_seqnos (df : DiffFns V D) (e : Entry K V D)
    (hnr : e.value.isReference = false)
    (hnd : ∀ dl ∈ e.deltas, dl.isReference = false) :
    (e.versionsVals df).map CValue.toSeqno = e.versionSeqnos := by
  rw [versionsVals_eq df e hnr]
  simp only [List.map_cons, Entry.versionSeqnos]
  rw [versionsAux_seqnos df e.deltas _ hnd]
  rfl

/-- The skip_till loop on a reference-free chain holding a version that
satisfies the upper bound: it succeeds, returning the first satisfying
reconstructed version and the remaining deltas - together the suffix of the
versions list from that version on. -/
theorem skipTillLoop_spec (df : DiffFns V D) (nb : RBound) :
    ∀ (ds : List (CDelta D)) (v0 : CValue V),
      (∀ dl ∈ ds, dl.isReference = false) →
      (∃ dl ∈ ds, loopDone nb dl.toSeqno = true) →
      ∃ v rest, skipTillLoop df v0 ds nb = some (v, rest) ∧
        v.isReference = false ∧ rest.IsSuffix ds ∧
        v :: versionsAux df v.toNativeValue rest
          = (versionsAux df v0.toNativeValue ds).dropWhile
              (fun x => !loopDone nb x.toSeqno) := by
  intro ds
  induction ds with
  | nil =>
      intro v0 _ hex
      simp at hex
  | cons dl rest ih =>
      intro v0 hnd hex
      obtain ⟨v, hnv, hunroll, hs, hr⟩ :=
        versionsAux_cons_native df v0.toNativeValue dl rest (hnd dl (by simp))
      by_cases hdone : loopDone nb v.toSeqno = true
      · refine ⟨v, rest, ?_, hr, List.suffix_cons dl rest, ?_⟩
        · simp [skipTillLoop, hnv, hdone]
        · rw [hunroll, List.dropWhile_cons]
          simp [hdone]
      · have hex2 : ∃ dl2 ∈ rest, loopDone nb dl2.toSeqno = true := by
          obtain ⟨dl2, hmem, hsat⟩ := hex
          rcases List.mem_cons.mp hmem with h | h
          · subst h
            rw [← hs] at hsat
            exact absurd hsat hdone
          · exact ⟨dl2, h, hsat⟩
        obtain ⟨v2, rest2, hloop, hr2, hsuff, heq⟩ :=
          ih v (fun x hx => hnd x (by simp [hx])) hex2
        refine ⟨v2, rest2, ?_, hr2, hsuff.trans (List.suffix_cons dl rest), ?_⟩
        · simp [skipTillLoop, hnv, hdone, hloop]
        · rw [hunroll, List.dropWhile_cons]
          simp only [hdone, Bool.not_false, if_true, if_false]
          exact heq

/-- The lower range end is upward closed in the seqno. -/
theorem lowSat_upClosed (start : RBound) :
    ∀ m n : Nat, m ≤ n → lowSat start m = true → lowSat start n = true := by
  intro m n hmn h
  cases start <;> simp only [lowSat, decide_eq_true_eq] at h ⊢ <;> omega

/-- The upper range end is downward closed in the seqno. -/
theorem highSat_downClosed (stop : RBound) :
    ∀ m n : Nat, m ≤ n → highSat stop n = true → highSat stop m = true := by
  intro m n hmn h
  cases stop <;> simp only [highSat, decide_eq_true_eq] at h ⊢ <;> omega

/-- The purge applied by filter_within for the lower range end: starting
from a reference-free, strictly-decreasing, positive-seqno entry, it either
drops the entry - exactly when no version satisfies the lower end - or
returns an entry whose versions are exactly those satisfying the lower
end. -/
theorem purge_start_spec (df : DiffFns V D) (e2 : Entry K V D) (start : RBound)
    (hnr : e2.value.isReference = false)
    (hnd : ∀ dl ∈ e2.deltas, dl.isReference = false)
    (hsort : e2.versionSeqnos.Pairwise (· > ·))
    (hpos : ∀ s ∈ e2.versionSeqnos, 1 ≤ s) :
    ∃ r, purgeStart e2 start = r ∧
      ((r = none ∧
          (e2.versionsVals df).filter (fun v => lowSat start v.toSeqno) = []) ∨
       (∃ e3, r = some e3 ∧ e3.key = e2.key ∧
          e3.versionsVals df
            = (e2.versionsVals df).filter (fun v => lowSat start v.toSeqno) ∧
          (e2.versionsVals df).filter (fun v => lowSat start v.toSeqno) ≠ [])) := by
  have hvs := versionsVals_eq df e2 hnr
  have hmapseq := versionsVals_seqnos df e2 hnr hnd
  have hsortv : ((e2.versionsVals df).map CValue.toSeqno).Pairwise (· > ·) := by
    rw [hmapseq]; exact hsort
  have hmemseq : ∀ v ∈ e2.versionsVals df, v.toSeqno ∈ e2.versionSeqnos := by
    intro v hv
    rw [← hmapseq]
    exact List.mem_map_of_mem _ hv
  have hallle : ∀ s ∈ e2.versionSeqnos, s ≤ e2.toSeqno := by
    intro s hs
    rcases List.mem_cons.mp hs with h | h
    · omega
    · have := hsort
      simp only [Entry.versionSeqnos, List.pairwise_cons] at this
      exact Nat.le_of_lt (this.1 s h)
  have hftw := filter_eq_takeWhile_of_upClosed CValue.toSeqno (lowSat start)
    (lowSat_upClosed start) (e2.versionsVals df) hsortv
  have hnonempty : e2.versionsVals df ≠ [] := by
    rw [hvs]; exact List.cons_ne_nil _ _
  cases start with
  | unbounded =>
      have hself : (e2.versionsVals df).filter
          (fun v => lowSat RBound.unbounded v.toSeqno) = e2.versionsVals df :=
        List.filter_eq_self.mpr (fun v _ => rfl)
      refine ⟨some e2, rfl, Or.inr ⟨e2, rfl, rfl, ?_, ?_⟩⟩
      · rw [hself]
      · rw [hself]
        exact hnonempty
  | included x =>
      cases x with
      | zero =>
          have hself : (e2.versionsVals df).filter
              (fun v => lowSat (RBound.included 0) v.toSeqno) = e2.versionsVals df :=
            List.filter_eq_self.mpr (fun v _ => by simp [lowSat])
          refine ⟨some e2, rfl, Or.inr ⟨e2, rfl, rfl, ?_, ?_⟩⟩
          · rw [hself]
          · rw [hself]
            exact hnonempty
      | succ m =>
          by_cases hc : e2.toSeqno < m + 1
          · refine ⟨none, by simp [purgeStart, Entry.purge, hc], Or.inl ⟨rfl, ?_⟩⟩
            rw [List.filter_eq_nil_iff]
            intro v hv
            have h1 := hallle _ (hmemseq v hv)
            simp only [lowSat, decide_eq_true_eq]
            omega
          · refine ⟨some { e2 with deltas :=
                e2.deltas.takeWhile (fun dl => decide (dl.toSeqno ≥ m + 1)) },
              by simp [purgeStart, Entry.purge, hc], Or.inr ⟨_, rfl, rfl, ?_, ?_⟩⟩
            · have hgform : (fun dl : CDelta D => decide (dl.toSeqno ≥ m + 1))
                  = (fun dl : CDelta D => lowSat (.included (m + 1)) dl.toSeqno) := by
                funext dl
                simp only [lowSat, ge_iff_le]
              have he3 := versionsVals_eq df
                { e2 with deltas :=
                    e2.deltas.takeWhile (fun dl => decide (dl.toSeqno ≥ m + 1)) } hnr
              rw [he3]
              show e2.value :: versionsAux df e2.value.toNativeValue
                    (e2.deltas.takeWhile (fun dl => decide (dl.toSeqno ≥ m + 1)))
                  = List.filter (fun v => lowSat (RBound.included (m + 1)) v.toSeqno)
                      (Entry.versionsVals df e2)
              rw [hgform,
                versionsAux_takeWhile df (lowSat (.included (m + 1))) e2.deltas
                  e2.value.toNativeValue hnd]
              rw [hftw, hvs, List.takeWhile_cons]
              have hhead : lowSat (.included (m + 1)) e2.value.toSeqno = true := by
                simp only [lowSat, decide_eq_true_eq]
                have : e2.toSeqno = e2.value.toSeqno := rfl
                omega
              simp [hhead]
            · rw [hftw, hvs, List.takeWhile_cons]
              have hhead : lowSat (.included (m + 1)) e2.value.toSeqno = true := by
                simp only [lowSat, decide_eq_true_eq]
                have : e2.toSeqno = e2.value.toSeqno := rfl
                omega
              simp only [hhead, if_true]
              exact List.cons_ne_nil _ _
  | excluded x =>
      cases x with
      | zero =>
          have hself : (e2.versionsVals df).filter
              (fun v => lowSat (RBound.excluded 0) v.toSeqno) = e2.versionsVals df :=
            List.filter_eq_self.mpr (fun v hv => by
              have h1 := hpos _ (hmemseq v hv)
              simp only [lowSat, decide_eq_true_eq]
              omega)
          refine ⟨some e2, rfl, Or.inr ⟨e2, rfl, rfl, ?_, ?_⟩⟩
          · rw [hself]
          · rw [hself]
            exact hnonempty
      | succ m =>
          by_cases hc : e2.toSeqno ≤ m + 1
          · refine ⟨none, by simp [purgeStart, Entry.purge, hc], Or.inl ⟨rfl, ?_⟩⟩
            rw [List.filter_eq_nil_iff]
            intro v hv
            have h1 := hallle _ (hmemseq v hv)
            simp only [lowSat, decide_eq_true_eq]
            omega
          · refine ⟨some { e2 with deltas :=
                e2.deltas.takeWhile (fun dl => decide (dl.toSeqno > m + 1)) },
              by simp [purgeStart, Entry.purge, hc], Or.inr ⟨_, rfl, rfl, ?_, ?_⟩⟩
            · have hgform : (fun dl : CDelta D => decide (dl.toSeqno > m + 1))
                  = (fun dl : CDelta D => lowSat (.excluded (m + 1)) dl.toSeqno) := by
                funext dl
                simp only [lowSat, gt_iff_lt]
              have he3 := versionsVals_eq df
                { e2 with deltas :=
                    e2.deltas.takeWhile (fun dl => decide (dl.toSeqno > m + 1)) } hnr
              rw [he3]
              show e2.value :: versionsAux df e2.value.toNativeValue
                    (e2.deltas.takeWhile (fun dl => decide (dl.toSeqno > m + 1)))
                  = List.filter (fun v => lowSat (RBound.excluded (m + 1)) v.toSeqno)
                      (Entry.versionsVals df e2)
              rw [hgform,
                versionsAux_takeWhile df (lowSat (.excluded (m + 1))) e2.deltas
                  e2.value.toNativeValue hnd]
              rw [hftw, hvs, List.takeWhile_cons]
              have hhead : lowSat (.excluded (m + 1)) e2.value.toSeqno = true := by
                simp only [lowSat, decide_eq_true_eq]
                have : e2.toSeqno = e2.value.toSeqno := rfl
                omega
              simp [hhead]
            · rw [hftw, hvs, List.takeWhile_cons]
              have hhead : lowSat (.excluded (m + 1)) e2.value.toSeqno = true := by
                simp only [lowSat, decide_eq_true_eq]
                have : e2.toSeqno = e2.value.toSeqno := rfl
                omega
              simp only [hhead, if_true]
              exact List.cons_ne_nil _ _

/-- In a strictly decreasing list the last element is the minimum. -/
theorem pairwise_gt_last_min :
    ∀ (l : List Nat), l.Pairwise (· > ·) →
      ∀ x, l.getLast? = some x → ∀ s ∈ l, x ≤ s := by
  intro l
  induction l with
  | nil => intro _ x hx; simp at hx
  | cons a t ih =>
      intro hp x hx s hs
      cases t with
      | nil =>
          simp only [List.getLast?_singleton] at hx
          injection hx with hx
          subst hx
          simp only [List.mem_singleton] at hs
          omega
      | cons b t2 =>
          rw [List.getLast?_cons_cons] at hx
          have hxmem : x ∈ b :: t2 := List.mem_of_getLast?_eq_some hx
          rw [List.pairwise_cons] at hp
          rcases List.mem_cons.mp hs with h | h
          · subst h
            exact Nat.le_of_lt (hp.1 x hxmem)
          · exact ih hp.2 x hx s h

/-- The head of the version seqnos is the maximum. -/
theorem head_max_versionSeqnos (e : Entry K V D)
    (hsort : e.versionSeqnos.Pairwise (· > ·)) :
    ∀ s ∈ e.versionSeqnos, s ≤ e.toSeqno := by
  intro s hs
  rcases List.mem_cons.mp hs with h | h
  · omega
  · have := hsort
    simp only [Entry.versionSeqnos, List.pairwise_cons] at this
    exact Nat.le_of_lt (this.1 s h)

/-- The oldest version seqno - the seqno of the last delta, or the current
seqno when there are no deltas - is the minimum of the version seqnos. -/
theorem oldest_min (e : Entry K V D)
    (hsort : e.versionSeqnos.Pairwise (· > ·)) :
    ∀ s ∈ e.versionSeqnos,
      (match e.deltas.getLast? with
       | some dl => dl.toSeqno
       | none => e.toSeqno) ≤ s := by
  cases hgl : e.deltas.getLast? with
  | none =>
      have hnil : e.deltas = [] := List.getLast?_eq_none_iff.mp hgl
      intro s hs
      simp only [Entry.versionSeqnos, hnil, List.map_nil, List.mem_singleton] at hs
      subst hs
      exact Nat.le_refl _
  | some dl =>
      intro s hs
      have hmapl : (e.deltas.map CDelta.toSeqno).getLast? = some dl.toSeqno := by
        rw [List.getLast?_map, hgl]
        rfl
      have hptail : (e.deltas.map CDelta.toSeqno).Pairwise (· > ·) := by
        have := hsort
        simp only [Entry.versionSeqnos, List.pairwise_cons] at this
        exact this.2
      rcases List.mem_cons.mp hs with h | h
      · subst h
        have hmem : dl.toSeqno ∈ e.deltas.map CDelta.toSeqno :=
          List.mem_of_getLast?_eq_some hmapl
        have := hsort
        simp only [Entry.versionSeqnos, List.pairwise_cons] at this
        exact Nat.le_of_lt (this.1 _ hmem)
      · exact pairwise_gt_last_min _ hptail _ hmapl s h

/-- filter_within after a successful skip_till: apply the start-side purge
to the skipped entry. -/
theorem filterWithin_of_skip_some (df : DiffFns V D) (e : Entry K V D)
    (start stop : RBound) (entry : Entry K V D)
    (hskip : e.skipTill df start stop = some (some entry)) :
    e.filterWithin df start stop = some (purgeStart entry start) := by
  cases start with
  | included x => simp [Entry.filterWithin, hskip, purgeStart]
  | excluded x => simp [Entry.filterWithin, hskip, purgeStart]
  | unbounded => simp [Entry.filterWithin, hskip, purgeStart]

/-- filter_within when skip_till returns the entry whole (every version
within the upper bound): the result is governed by the start-side purge. -/
theorem filter_within_within_case (df : DiffFns V D) (e : Entry K V D)
    (start stop : RBound)
    (hnr : e.value.isReference = false)
    (hnd : ∀ dl ∈ e.deltas, dl.isReference = false)
    (hsort : e.versionSeqnos.Pairwise (· > ·))
    (hpos : ∀ s ∈ e.versionSeqnos, 1 ≤ s)
    (hhigh : ∀ v ∈ e.versionsVals df, highSat stop v.toSeqno = true)
    (hskip : e.skipTill df start stop = some (some e)) :
    ∃ r, e.filterWithin df start stop = some r ∧
      ((r = none ∧ (e.versionsVals df).filter
          (fun v => lowSat start v.toSeqno && highSat stop v.toSeqno) = []) ∨
       (∃ e3, r = some e3 ∧ e3.key = e.key ∧
          e3.versionsVals df = (e.versionsVals df).filter
            (fun v => lowSat start v.toSeqno && highSat stop v.toSeqno) ∧
          (e.versionsVals df).filter
            (fun v => lowSat start v.toSeqno && highSat stop v.toSeqno) ≠ [])) := by
  obtain ⟨r, hr, hchar⟩ := purge_start_spec df e start hnr hnd hsort hpos
  have hfeq : (e.versionsVals df).filter
      (fun v => lowSat start v.toSeqno && highSat stop v.toSeqno)
      = (e.versionsVals df).filter (fun v => lowSat start v.toSeqno) :=
    List.filter_congr (fun v hv => by rw [hhigh v hv, Bool.and_true])
  have hfw := filterWithin_of_skip_some df e start stop e hskip
  rw [hr] at hfw
  rw [hfeq]
  exact ⟨r, hfw, hchar⟩

/-- filter_within through the partial-skip loop: the reconstructed entry
holds exactly the versions within the upper bound, and the start-side purge
then restricts to the requested range. -/
theorem filter_within_loop_case (df : DiffFns V D) (e : Entry K V D)
    (start stop : RBound)
    (hnr : e.value.isReference = false)
    (hnd : ∀ dl ∈ e.deltas, dl.isReference = false)
    (hsort : e.versionSeqnos.Pairwise (· > ·))
    (hpos : ∀ s ∈ e.versionSeqnos, 1 ≤ s)
    (hld : (fun x : CValue V => !loopDone stop x.toSeqno)
         = (fun x : CValue V => !highSat stop x.toSeqno))
    (hhihead : highSat stop e.toSeqno = false)
    (v : CValue V) (rest : List (CDelta D))
    (hrv : v.isReference = false)
    (hsuff : rest.IsSuffix e.deltas)
    (heq : v :: versionsAux df v.toNativeValue rest
        = (versionsAux df e.value.toNativeValue e.deltas).dropWhile
            (fun x => !loopDone stop x.toSeqno))
    (hskip : e.skipTill df start stop
        = some (some { e with value := v, deltas := rest })) :
    ∃ r, e.filterWithin df start stop = some r ∧
      ((r = none ∧ (e.versionsVals df).filter
          (fun v2 => lowSat start v2.toSeqno && highSat stop v2.toSeqno) = []) ∨
       (∃ e3, r = some e3 ∧ e3.key = e.key ∧
          e3.versionsVals df = (e.versionsVals df).filter
            (fun v2 => lowSat start v2.toSeqno && highSat stop v2.toSeqno) ∧
          (e.versionsVals df).filter
            (fun v2 => lowSat start v2.toSeqno && highSat stop v2.toSeqno) ≠ [])) := by
  have hvs := versionsVals_eq df e hnr
  have hmapseq := versionsVals_seqnos df e hnr hnd
  have hsortv : ((e.versionsVals df).map CValue.toSeqno).Pairwise (· > ·) := by
    rw [hmapseq]; exact hsort
  have hnd2 : ∀ dl ∈ rest, dl.isReference = false :=
    fun dl hdl => hnd dl (hsuff.subset hdl)
  have hv2 : Entry.versionsVals df { e with value := v, deltas := rest }
      = v :: versionsAux df v.toNativeValue rest := versionsVals_eq df _ hrv
  have hheadskip : (!highSat stop (CValue.toSeqno e.value)) = true := by
    have : e.toSeqno = e.value.toSeqno := rfl
    rw [Bool.not_eq_true']
    rw [this] at hhihead
    exact hhihead
  have hdw1 : (e.versionsVals df).dropWhile (fun x => !highSat stop x.toSeqno)
      = (versionsAux df e.value.toNativeValue e.deltas).dropWhile
          (fun x => !highSat stop x.toSeqno) := by
    rw [hvs, List.dropWhile_cons, if_pos hheadskip]
  have hv2eq : Entry.versionsVals df { e with value := v, deltas := rest }
      = (e.versionsVals df).filter (fun x => highSat stop x.toSeqno) := by
    rw [hv2, heq, hld, ← hdw1]
    exact dropWhile_not_eq_filter_of_downClosed CValue.toSeqno (highSat stop)
      (highSat_downClosed stop) _ hsortv
  have hmap2 : (Entry.versionsVals df
        { e with value := v, deltas := rest }).map CValue.toSeqno
      = ({ e with value := v, deltas := rest } : Entry K V D).versionSeqnos :=
    versionsVals_seqnos df _ hrv hnd2
  have hsub : List.Sublist
      ((Entry.versionsVals df { e with value := v, deltas := rest }).map CValue.toSeqno)
      ((e.versionsVals df).map CValue.toSeqno) := by
    rw [hv2eq]
    exact (List.filter_sublist _).map _
  have hsort2 : ({ e with value := v, deltas := rest } : Entry K V D).versionSeqnos.Pairwise
      (· > ·) := by
    rw [← hmap2]
    exact List.Pairwise.sublist hsub hsortv
  have hpos2 : ∀ s ∈ ({ e with value := v, deltas := rest } : Entry K V D).versionSeqnos,
      1 ≤ s := by
    intro s hs
    rw [← hmap2] at hs
    have : s ∈ (e.versionsVals df).map CValue.toSeqno := hsub.subset hs
    rw [hmapseq] at this
    exact hpos s this
  obtain ⟨r, hr, hchar⟩ := purge_start_spec df
    { e with value := v, deltas := rest } start hrv hnd2 hsort2 hpos2
  have hfw := filterWithin_of_skip_some df e start stop _ hskip
  rw [hr] at hfw
  have hfeq : (e.versionsVals df).filter
      (fun x => lowSat start x.toSeqno && highSat stop x.toSeqno)
      = (Entry.versionsVals df { e with value := v, deltas := rest }).filter
          (fun x => lowSat start x.toSeqno) := by
    rw [hv2eq, List.filter_filter]
  rw [hfeq]
  refine ⟨r, hfw, ?_⟩
  rcases hchar with ⟨hnone, hfil⟩ | ⟨e3, hre3, hkey, hev, hnonempty⟩
  · exact Or.inl ⟨hnone, hfil⟩
  · exact Or.inr ⟨e3, hre3, hkey, hev, hnonempty⟩

end VersionLemmas

/-- C5 counterexample: the native entry with versions at seqnos 1 and 0
(strictly decreasing) and the range (Excluded 0, Unbounded): filter_within
returns the entry unchanged - including the version at seqno 0, which is
outside the range - because the start-side purge short-circuits on
Included(0); the claimed equality with the filtered version sequence fails. -/
theorem C5_counterexample_seqno_zero :
    entryC5ce.value.isReference = false ∧
    (∀ dl ∈ entryC5ce.deltas, dl.isReference = false) ∧
    entryC5ce.versionSeqnos.Pairwise (· > ·) ∧
    entryC5ce.filterWithin intDiff (.excluded 0) .unbounded
      = some (some entryC5ce) ∧
    (entryC5ce.versionsVals intDiff).filter
      (fun v => lowSat (.excluded 0) v.toSeqno && highSat .unbounded v.toSeqno)
      = [.u (.native 1) 1] ∧
    entryC5ce.versionsVals intDiff ≠ [.u (.native 1) 1] := by
  refine ⟨rfl, by decide, by decide, by decide, by decide, by decide⟩

/-- C5 (amended: restricted to entries all of whose version seqnos are ≥ 1,
as any index produces): for every entry E whose value and deltas are native
and whose version seqnos are strictly decreasing, and every seqno range
(start, stop), E.filter_within(start, stop).versions() equals E.versions()
restricted to the versions whose seqno lies within the range, and
filter_within returns None exactly when no version lies within the range;
without the seqno ≥ 1 restriction, a version at seqno 0 escapes the range
filter because the start-side purge short-circuits on the bounds
Included(0) and Excluded(0). -/
theorem C5_filter_within_spec {K V D : Type} (df : DiffFns V D) (e : Entry K V D)
    (start stop : RBound)
    (hnr : e.value.isReference = false)
    (hnd : ∀ dl ∈ e.deltas, dl.isReference = false)
    (hsort : e.versionSeqnos.Pairwise (· > ·))
    (hpos : ∀ s ∈ e.versionSeqnos, 1 ≤ s) :
    ∃ r, e.filterWithin df start stop = some r ∧
      ((r = none ∧ (e.versionsVals df).filter
          (fun v => lowSat start v.toSeqno && highSat stop v.toSeqno) = []) ∨
       (∃ e3, r = some e3 ∧ e3.key = e.key ∧
          e3.versionsVals df = (e.versionsVals df).filter
            (fun v => lowSat start v.toSeqno && highSat stop v.toSeqno) ∧
          (e.versionsVals df).filter
            (fun v => lowSat start v.toSeqno && highSat stop v.toSeqno) ≠ [])) := by
  have hmapseq := versionsVals_seqnos df e hnr hnd
  have hmemseq : ∀ v2 ∈ e.versionsVals df, v2.toSeqno ∈ e.versionSeqnos := by
    intro v2 hv2
    rw [← hmapseq]
    exact List.mem_map_of_mem _ hv2
  have hallle := head_max_versionSeqnos e hsort
  have hold := oldest_min e hsort
  by_cases hlow : lowSat start e.toSeqno = true
  case neg =>
    have hskip : e.skipTill df start stop = some none := by
      cases start with
      | unbounded => simp [lowSat] at hlow
      | included x =>
          have hx : e.toSeqno < x := by
            simp only [lowSat, decide_eq_true_eq] at hlow
            omega
          simp [Entry.skipTill, hx]
      | excluded x =>
          have hx : e.toSeqno ≤ x := by
            simp only [lowSat, decide_eq_true_eq] at hlow
            omega
          simp [Entry.skipTill, hx]
    have hfw : e.filterWithin df start stop = some none := by
      simp [Entry.filterWithin, hskip]
    refine ⟨none, hfw, Or.inl ⟨rfl, ?_⟩⟩
    rw [List.filter_eq_nil_iff]
    intro v2 hv2
    have h1 : v2.toSeqno ≤ e.toSeqno := hallle _ (hmemseq v2 hv2)
    have h2 : lowSat start v2.toSeqno = false := by
      rw [Bool.eq_false_iff]
      intro hcon
      exact hlow (lowSat_upClosed start _ _ h1 hcon)
    simp [h2]
  case pos =>
    cases stop with
    | unbounded =>
        have hskip : e.skipTill df start .unbounded = some (some e) := by
          cases start with
          | unbounded => simp [Entry.skipTill]
          | included x =>
              have hx : ¬ e.toSeqno < x := by
                simp only [lowSat, decide_eq_true_eq] at hlow
                omega
              simp [Entry.skipTill, hx]
          | excluded x =>
              have hx : ¬ e.toSeqno ≤ x := by
                simp only [lowSat, decide_eq_true_eq] at hlow
                omega
              simp [Entry.skipTill, hx]
        exact filter_within_within_case df e start .unbounded hnr hnd hsort hpos
          (fun v2 _ => rfl) hskip
    | included nn =>
        by_cases hhiold : highSat (.included nn)
            (match e.deltas.getLast? with
             | some dl => dl.toSeqno
             | none => e.toSeqno) = true
        · by_cases hhihead : highSat (.included nn) e.toSeqno = true
          · have hno : ¬ (match e.deltas.getLast? with
                | some dl => dl.toSeqno
                | none => e.toSeqno) > nn := by
              simp only [highSat, decide_eq_true_eq] at hhiold
              omega
            have hn2 : e.toSeqno ≤ nn := by
              simp only [highSat, decide_eq_true_eq] at hhihead
              omega
            have hskip : e.skipTill df start (.included nn) = some (some e) := by
              cases start with
              | unbounded => simp [Entry.skipTill, hno, hn2]
              | included x =>
                  have hx : ¬ e.toSeqno < x := by
                    simp only [lowSat, decide_eq_true_eq] at hlow
                    omega
                  simp [Entry.skipTill, hx, hno, hn2]
              | excluded x =>
                  have hx : ¬ e.toSeqno ≤ x := by
                    simp only [lowSat, decide_eq_true_eq] at hlow
                    omega
                  simp [Entry.skipTill, hx, hno, hn2]
            refine filter_within_within_case df e start _ hnr hnd hsort hpos ?_ hskip
            intro v2 hv2
            have h1 := hallle _ (hmemseq v2 hv2)
            exact highSat_downClosed _ _ _ h1 hhihead
          · have hdne : e.deltas ≠ [] := by
              intro hnil
              rw [hnil] at hhiold
              exact hhihead hhiold
            obtain ⟨dlast, hgl⟩ : ∃ dlast, e.deltas.getLast? = some dlast := by
              cases hgl2 : e.deltas.getLast? with
              | none => exact absurd (List.getLast?_eq_none_iff.mp hgl2) hdne
              | some dlast => exact ⟨dlast, rfl⟩
            have hdl2 : (match e.deltas.getLast? with
                | some dl => CDelta.toSeqno dl
                | none => e.toSeqno) = dlast.toSeqno := by
              rw [hgl]
            rw [hdl2] at hhiold
            have hsat : loopDone (.included nn) dlast.toSeqno = true := hhiold
            obtain ⟨v, rest, hloop, hrv, hsuff, heq⟩ :=
              skipTillLoop_spec df (.included nn) e.deltas e.value hnd
                ⟨dlast, List.mem_of_getLast?_eq_some hgl, hsat⟩
            have hno : ¬ (match e.deltas.getLast? with
                | some dl => dl.toSeqno
                | none => e.toSeqno) > nn := by
              rw [hdl2]
              simp only [highSat, decide_eq_true_eq] at hhiold
              omega
            have hn2 : ¬ e.toSeqno ≤ nn := by
              simp only [highSat, decide_eq_true_eq] at hhihead
              exact hhihead
            have hskip : e.skipTill df start (.included nn)
                = some (some { e with value := v, deltas := rest }) := by
              cases start with
              | unbounded => simp [Entry.skipTill, hno, hn2, hloop]
              | included x =>
                  have hx : ¬ e.toSeqno < x := by
                    simp only [lowSat, decide_eq_true_eq] at hlow
                    omega
                  simp [Entry.skipTill, hx, hno, hn2, hloop]
              | excluded x =>
                  have hx : ¬ e.toSeqno ≤ x := by
                    simp only [lowSat, decide_eq_true_eq] at hlow
                    omega
                  simp [Entry.skipTill, hx, hno, hn2, hloop]
            refine filter_within_loop_case df e start (.included nn) hnr hnd hsort hpos
              rfl ?_ v rest hrv hsuff heq hskip
            rw [Bool.eq_false_iff]
            exact hhihead
        · have hno : (match e.deltas.getLast? with
              | some dl => dl.toSeqno
              | none => e.toSeqno) > nn := by
            simp only [highSat, decide_eq_true_eq] at hhiold
            omega
          have hskip : e.skipTill df start (.included nn) = some none := by
            cases start with
            | unbounded => simp [Entry.skipTill, hno]
            | included x =>
                have hx : ¬ e.toSeqno < x := by
                  simp only [lowSat, decide_eq_true_eq] at hlow
                  omega
                simp [Entry.skipTill, hx, hno]
            | excluded x =>
                have hx : ¬ e.toSeqno ≤ x := by
                  simp only [lowSat, decide_eq_true_eq] at hlow
                  omega
                simp [Entry.skipTill, hx, hno]
          have hfw : e.filterWithin df start (.included nn) = some none := by
            simp [Entry.filterWithin, hskip]
          refine ⟨none, hfw, Or.inl ⟨rfl, ?_⟩⟩
          rw [List.filter_eq_nil_iff]
          intro v2 hv2
          have h1 := hold _ (hmemseq v2 hv2)
          have h2 : highSat (.included nn) v2.toSeqno = false := by
            rw [Bool.eq_false_iff]
            intro hcon
            exact hhiold (highSat_downClosed _ _ _ h1 hcon)
          simp [h2]
    | excluded nn =>
        by_cases hhiold : highSat (.excluded nn)
            (match e.deltas.getLast? with
             | some dl => dl.toSeqno
             | none => e.toSeqno) = true
        · by_cases hhihead : highSat (.excluded nn) e.toSeqno = true
          · have hno : ¬ (match e.deltas.getLast? with
                | some dl => dl.toSeqno
                | none => e.toSeqno) ≥ nn := by
              simp only [highSat, decide_eq_true_eq] at hhiold
              omega
            have hn2 : e.toSeqno < nn := by
              simp only [highSat, decide_eq_true_eq] at hhihead
              omega
            have hskip : e.skipTill df start (.excluded nn) = some (some e) := by
              cases start with
              | unbounded => simp [Entry.skipTill, hno, hn2]
              | included x =>
                  have hx : ¬ e.toSeqno < x := by
                    simp only [lowSat, decide_eq_true_eq] at hlow
                    omega
                  simp [Entry.skipTill, hx, hno, hn2]
              | excluded x =>
                  have hx : ¬ e.toSeqno ≤ x := by
                    simp only [lowSat, decide_eq_true_eq] at hlow
                    omega
                  simp [Entry.skipTill, hx, hno, hn2]
            refine filter_within_within_case df e start _ hnr hnd hsort hpos ?_ hskip
            intro v2 hv2
            have h1 := hallle _ (hmemseq v2 hv2)
            exact highSat_downClosed _ _ _ h1 hhihead
          · have hdne : e.deltas ≠ [] := by
              intro hnil
              rw [hnil] at hhiold
              exact hhihead hhiold
            obtain ⟨dlast, hgl⟩ : ∃ dlast, e.deltas.getLast? = some dlast := by
              cases hgl2 : e.deltas.getLast? with
              | none => exact absurd (List.getLast?_eq_none_iff.mp hgl2) hdne
              | some dlast => exact ⟨dlast, rfl⟩
            have hdl2 : (match e.deltas.getLast? with
                | some dl => CDelta.toSeqno dl
                | none => e.toSeqno) = dlast.toSeqno := by
              rw [hgl]
            rw [hdl2] at hhiold
            have hsat : loopDone (.excluded nn) dlast.toSeqno = true := hhiold
            obtain ⟨v, rest, hloop, hrv, hsuff, heq⟩ :=
              skipTillLoop_spec df (.excluded nn) e.deltas e.value hnd
                ⟨dlast, List.mem_of_getLast?_eq_some hgl, hsat⟩
            have hno : ¬ (match e.deltas.getLast? with
                | some dl => dl.toSeqno
                | none => e.toSeqno) ≥ nn := by
              rw [hdl2]
              simp only [highSat, decide_eq_true_eq] at hhiold
              omega
            have hn2 : ¬ e.toSeqno < nn := by
              simp only [highSat, decide_eq_true_eq] at hhihead
              exact hhihead
            have hskip : e.skipTill df start (.excluded nn)
                = some (some { e with value := v, deltas := rest }) := by
              cases start with
              | unbounded => simp [Entry.skipTill, hno, hn2, hloop]
              | included x =>
                  have hx : ¬ e.toSeqno < x := by
                    simp only [lowSat, decide_eq_true_eq] at hlow
                    omega
                  simp [Entry.skipTill, hx, hno, hn2, hloop]
              | excluded x =>
                  have hx : ¬ e.toSeqno ≤ x := by
                    simp only [lowSat, decide_eq_true_eq] at hlow
                    omega
                  simp [Entry.skipTill, hx, hno, hn2, hloop]
            refine filter_within_loop_case df e start (.excluded nn) hnr hnd hsort hpos
              rfl ?_ v rest hrv hsuff heq hskip
            rw [Bool.eq_false_iff]
            exact hhihead
        · have hno : (match e.deltas.getLast? with
              | some dl => dl.toSeqno
              | none => e.toSeqno) ≥ nn := by
            simp only [highSat, decide_eq_true_eq] at hhiold
            omega
          have hskip : e.skipTill df start (.excluded nn) = some none := by
            cases start with
            | unbounded => simp [Entry.skipTill, hno]
            | included x =>
                have hx : ¬ e.toSeqno < x := by
                  simp only [lowSat, decide_eq_true_eq] at hlow
                  omega
                simp [Entry.skipTill, hx, hno]
            | excluded x =>
                have hx : ¬ e.toSeqno ≤ x := by
                  simp only [lowSat, decide_eq_true_eq] at hlow
                  omega
                simp [Entry.skipTill, hx, hno]
          have hfw : e.filterWithin df start (.excluded nn) = some none := by
            simp [Entry.filterWithin, hskip]
          refine ⟨none, hfw, Or.inl ⟨rfl, ?_⟩⟩
          rw [List.filter_eq_nil_iff]
          intro v2 hv2
          have h1 := hold _ (hmemseq v2 hv2)
          have h2 : highSat (.excluded nn) v2.toSeqno = false := by
            rw [Bool.eq_false_iff]
            intro hcon
            exact hhiold (highSat_downClosed _ _ _ h1 hcon)
          simp [h2]

/-- C5 witness: the amended filter_within theorem applied to a concrete
entry with versions at seqnos 5, 4, 3, 2 and the range [3, 4]. -/
theorem C5_filter_within_spec_witness :
    ∃ r, entryC5w.filterWithin intDiff (.included 3) (.included 4) = some r ∧
      ((r = none ∧ (entryC5w.versionsVals intDiff).filter
          (fun v => lowSat (.included 3) v.toSeqno && highSat (.included 4) v.toSeqno)
            = []) ∨
       (∃ e3, r = some e3 ∧ e3.key = entryC5w.key ∧
          e3.versionsVals intDiff = (entryC5w.versionsVals intDiff).filter
            (fun v => lowSat (.included 3) v.toSeqno && highSat (.included 4) v.toSeqno) ∧
          (entryC5w.versionsVals intDiff).filter
            (fun v => lowSat (.included 3) v.toSeqno && highSat (.included 4) v.toSeqno)
            ≠ [])) :=
  C5_filter_within_spec intDiff entryC5w (.included 3) (.included 4)
    rfl (by decide) (by decide) (by decide)

/-- C10: Cutoff.new_tombstone_empty builds Cutoff::Lsm(Bound::Excluded(0)),
the very same value as Cutoff.new_lsm_empty (not a Tombstone variant), and
purging any entry with an Lsm bound of Included(0) or Excluded(0) returns
the entry unchanged, by the short-circuit arms of Entry::purge. -/
theorem C10_tombstone_empty_is_lsm_excluded_zero :
    Cutoff.newTombstoneEmpty = Cutoff.lsm (.excluded 0) ∧
    Cutoff.newTombstoneEmpty = Cutoff.newLsmEmpty ∧
    ∀ (K V D : Type) (e : Entry K V D),
      e.purge (.lsm (.included 0)) = some e ∧
      e.purge (.lsm (.excluded 0)) = some e := by
  refine ⟨rfl, rfl, fun K V D e => ⟨rfl, rfl⟩⟩

/-- C4 counterexample: an entry whose single version has seqno 0 satisfies
the bound Included(0) at every version, yet Entry::purge with cutoff
Lsm(Included(0)) does not drop it - the short-circuit returns it unchanged,
contradicting the claim that such an entry is purged to None. -/
theorem C4_counterexample_seqno_zero :
    (∀ s ∈ entrySeqnoZero.versionSeqnos, boundSat (.included 0) s = true) ∧
    entrySeqnoZero.purge (.lsm (.included 0)) = some entrySeqnoZero := by
  constructor
  · intro s hs
    simp only [entrySeqnoZero, Entry.versionSeqnos, Entry.toSeqno, CValue.toSeqno,
      List.map_nil, List.mem_singleton] at hs
    subst hs
    rfl
  · rfl

/-- C4 (amended: restricted to entries all of whose version seqnos are ≥ 1,
which holds for every entry an index produces, and whose version seqnos are
strictly decreasing, the documented entry invariant): Entry::purge with
cutoff Lsm(bound) returns None iff every version (including the current
value) satisfies the bound, and otherwise returns the entry with exactly the
deltas whose seqnos do not satisfy the bound retained (the contiguous tail
of satisfying versions dropped), key and current value unchanged; the bound
is satisfied by s for Included(n) iff s ≤ n, for Excluded(n) iff s < n, and
always for Unbounded. -/
theorem C4_purge_lsm_spec {K V D : Type} (e : Entry K V D) (b : RBound)
    (hsort : e.versionSeqnos.Pairwise (· > ·))
    (hpos : ∀ s ∈ e.versionSeqnos, 1 ≤ s) :
    (e.purge (.lsm b) = none ↔ ∀ s ∈ e.versionSeqnos, boundSat b s = true) ∧
    (∀ e2, e.purge (.lsm b) = some e2 →
        e2.key = e.key ∧ e2.value = e.value ∧
        e2.deltas = e.deltas.filter (fun dl => !boundSat b dl.toSeqno)) := by
  have hne : e.toSeqno ∈ e.versionSeqnos := by
    simp [Entry.versionSeqnos]
  have hheadpos : 1 ≤ e.toSeqno := hpos _ hne
  have hdsort : (e.deltas.map CDelta.toSeqno).Pairwise (· > ·) := by
    have := hsort
    simp only [Entry.versionSeqnos, List.pairwise_cons] at this
    exact this.2
  have hheadmax : ∀ s ∈ e.deltas.map CDelta.toSeqno, s < e.toSeqno := by
    intro s hs
    have := hsort
    simp only [Entry.versionSeqnos, List.pairwise_cons] at this
    exact this.1 s hs
  cases b with
  | unbounded =>
      constructor
      · simp [Entry.purge, boundSat]
      · intro e2 h
        simp [Entry.purge] at h
  | included c =>
      cases c with
      | zero =>
          constructor
          · constructor
            · intro h; simp [Entry.purge] at h
            · intro h
              have h0 := h _ hne
              simp only [boundSat, decide_eq_true_eq] at h0
              omega
          · intro e2 h
            simp only [Entry.purge] at h
            injection h with h
            subst h
            refine ⟨rfl, rfl, ?_⟩
            rw [eq_comm, List.filter_eq_self]
            intro dl hdl
            have hmem : dl.toSeqno ∈ e.versionSeqnos := by
              simp only [Entry.versionSeqnos, List.mem_cons, List.mem_map]
              right
              exact ⟨dl, hdl, rfl⟩
            have h1 := hpos _ hmem
            simp only [boundSat, Bool.not_eq_true', decide_eq_false_iff_not]
            omega
      | succ m =>
          by_cases hcut : e.toSeqno ≤ m + 1
          · have hres : e.purge (.lsm (.included (m + 1))) = none := by
              simp [Entry.purge, hcut]
            constructor
            · rw [hres]
              simp only [true_iff]
              intro s hs
              rcases List.mem_cons.mp hs with h | h
              · simp only [boundSat, decide_eq_true_eq]
                omega
              · have h2 := hheadmax s h
                simp only [boundSat, decide_eq_true_eq]
                omega
            · intro e2 h
              rw [hres] at h
              simp at h
          · have hres : e.purge (.lsm (.included (m + 1))) =
                some { e with deltas :=
                  e.deltas.takeWhile (fun dl => decide (dl.toSeqno > m + 1)) } := by
              simp [Entry.purge, hcut]
            constructor
            · rw [hres]
              refine iff_of_false (by simp) ?_
              intro hall
              have h0 := hall _ hne
              simp only [boundSat, decide_eq_true_eq] at h0
              omega
            · intro e2 h
              rw [hres] at h
              injection h with h
              subst h
              refine ⟨rfl, rfl, ?_⟩
              have heq := filter_eq_takeWhile_of_upClosed CDelta.toSeqno
                (fun s => decide (s > m + 1))
                (by intro x y hxy hx
                    simp only [decide_eq_true_eq] at hx ⊢
                    omega) e.deltas hdsort
              have hcong : e.deltas.filter
                    (fun dl => !boundSat (RBound.included (m + 1)) dl.toSeqno)
                  = e.deltas.filter (fun dl => decide (dl.toSeqno > m + 1)) := by
                apply List.filter_congr
                intro dl _
                by_cases h2 : dl.toSeqno ≤ m + 1
                · simp [boundSat, h2, Nat.not_lt.mpr h2]
                · simp [boundSat, h2, Nat.lt_of_not_le h2]
              rw [hcong]
              exact heq.symm
  | excluded c =>
      cases c with
      | zero =>
          constructor
          · constructor
            · intro h; simp [Entry.purge] at h
            · intro h
              have h0 := h _ hne
              simp only [boundSat, decide_eq_true_eq] at h0
              omega
          · intro e2 h
            simp only [Entry.purge] at h
            injection h with h
            subst h
            refine ⟨rfl, rfl, ?_⟩
            rw [eq_comm, List.filter_eq_self]
            intro dl hdl
            simp [boundSat]
      | succ m =>
          by_cases hcut : e.toSeqno < m + 1
          · have hres : e.purge (.lsm (.excluded (m + 1))) = none := by
              simp [Entry.purge, hcut]
            constructor
            · rw [hres]
              simp only [true_iff]
              intro s hs
              rcases List.mem_cons.mp hs with h | h
              · simp only [boundSat, decide_eq_true_eq]
                omega
              · have h2 := hheadmax s h
                simp only [boundSat, decide_eq_true_eq]
                omega
            · intro e2 h
              rw [hres] at h
              simp at h
          · have hres : e.purge (.lsm (.excluded (m + 1))) =
                some { e with deltas :=
                  e.deltas.takeWhile (fun dl => decide (dl.toSeqno ≥ m + 1)) } := by
              simp [Entry.purge, hcut]
            constructor
            · rw [hres]
              refine iff_of_false (by simp) ?_
              intro hall
              have h0 := hall _ hne
              simp only [boundSat, decide_eq_true_eq] at h0
              omega
            · intro e2 h
              rw [hres] at h
              injection h with h
              subst h
              refine ⟨rfl, rfl, ?_⟩
              have heq := filter_eq_takeWhile_of_upClosed CDelta.toSeqno
                (fun s => decide (s ≥ m + 1))
                (by intro x y hxy hx
                    simp only [decide_eq_true_eq] at hx ⊢
                    omega) e.deltas hdsort
              have hcong : e.deltas.filter
                    (fun dl => !boundSat (RBound.excluded (m + 1)) dl.toSeqno)
                  = e.deltas.filter (fun dl => decide (dl.toSeqno ≥ m + 1)) := by
                apply List.filter_congr
                intro dl _
                by_cases h2 : dl.toSeqno < m + 1
                · simp [boundSat, h2, Nat.not_le.mpr h2]
                · simp [boundSat, h2, Nat.le_of_not_lt h2]
              rw [hcong]
              exact heq.symm

/-- C9 counterexample: for the value record written for a 5-byte payload,
the top bit (bit 63) of the 8-byte big-endian header is 0, not 1 - the
source sets VALUE_FLAG = 0x1000000000000000, which is bit 60. -/
theorem C9_counterexample_top_bit_clear :
    (fromBeBytes ((valueAppendTo [] [1, 2, 3, 4, 5]).1.take 8)).testBit 63 = false ∧
    (valueAppendTo [] [1, 2, 3, 4, 5]).2.2 = 5 := by
  constructor
  · decide
  · rfl

/-- C9 (amended: the flag is bit 60 of the 8-byte header, not the top bit):
every record appended to the value log is length-prefixed with a single
8-byte big-endian header; for value records the header is the payload
length with bit 60 set, for delta records it is the bare payload length
(bit 60 clear); every header bit other than bit 60 equals the
corresponding bit of the payload length, so the low 60 bits hold the
encoded byte length; append_to returns a Reference whose fpos is the file
offset of the header and whose length is the payload length. -/
theorem C9_vlog_record_format (file payload : List Nat)
    (hlen : payload.length < 2 ^ 60) :
    (valueAppendTo file payload).1
        = file ++ toBeBytes8 (payload.length ||| VALUE_FLAG) ++ payload ∧
    (valueAppendTo file payload).2.1 = file.length ∧
    (valueAppendTo file payload).2.2 = payload.length ∧
    (deltaAppendTo file payload).1 = file ++ toBeBytes8 payload.length ++ payload ∧
    (deltaAppendTo file payload).2.1 = file.length ∧
    (deltaAppendTo file payload).2.2 = payload.length ∧
    (payload.length ||| VALUE_FLAG).testBit 60 = true ∧
    payload.length.testBit 60 = false ∧
    (∀ i, i ≠ 60 → (payload.length ||| VALUE_FLAG).testBit i = payload.length.testBit i) := by
  have hflag : VALUE_FLAG = 2 ^ 60 := by norm_num [VALUE_FLAG]
  refine ⟨rfl, rfl, rfl, rfl, rfl, rfl, ?_, ?_, ?_⟩
  · rw [hflag, Nat.testBit_lor, Nat.testBit_two_pow_self, Bool.or_true]
  · exact Nat.testBit_eq_false_of_lt hlen
  · intro i hi
    rw [hflag, Nat.testBit_lor, Nat.testBit_two_pow_of_ne (Ne.symm hi), Bool.or_false]

/-- C9 witness: the record format theorem applied to a 3-byte payload
appended to a 1-byte file. -/
theorem C9_vlog_record_format_witness :
    ((1 : Nat) :: [2, 3]).length < 2 ^ 60 ∧
    (valueAppendTo [9] ((1 : Nat) :: [2, 3])).2.1 = [(9 : Nat)].length :=
  ⟨by decide, (C9_vlog_record_format [9] ((1 : Nat) :: [2, 3]) (by decide)).2.1⟩

/-- C2 counterexample: with replay seqno 2, the logged set at index 1 - below
replay_from - is dispatched to the handler because it sits inside a batch
whose last_index is 2: Wal::replay filters journals and batches by
last_index but never filters individual entries by index. -/
theorem C2_counterexample_low_index_dispatched :
    ReplayCall.setIndex (7 : Int) (70 : Int) 1 ∈ walReplayCalls journalsC2 2 ∧
    1 < 2 := by
  constructor
  · decide
  · decide

/-- C2 (amended: the filtering granularity is the batch, not the entry):
Wal::replay dispatches exactly the entries of non-skipped batches of
non-skipped journals, each with its original key, value, cas and index - a
journal is skipped iff it is cold or has last_index below replay_from, and
a batch iff its last_index is below replay_from; consequently every logged
operation with index at or above replay_from is dispatched (whenever the
batch and journal last_index fields dominate their entry indices), but an
entry with index below replay_from inside a retained batch is dispatched
as well. -/
theorem C2_replay_batch_granularity {K V : Type} (journals : List (WalJournal K V))
    (seqno : Nat) :
    (∀ c ∈ walReplayCalls journals seqno,
        ∃ j ∈ journals, journalSkip seqno j = false ∧
          ∃ b ∈ j.batches, batchSkip seqno b = false ∧
            ∃ en ∈ b.entries, c = dispatchEntry en) ∧
    (∀ j ∈ journals, ∀ b ∈ j.batches, ∀ en ∈ b.entries,
        j.cold = false →
        (∀ ji, j.lastIndex = some ji → en.index ≤ ji) →
        (∀ bi, b.lastIndex = some bi → en.index ≤ bi) →
        seqno ≤ en.index →
        dispatchEntry en ∈ walReplayCalls journals seqno) := by
  constructor
  · intro c hc
    simp only [walReplayCalls, List.mem_flatMap, List.mem_filter, List.mem_map,
      Bool.not_eq_true'] at hc
    obtain ⟨j, ⟨hj, hjs⟩, b, ⟨hb, hbs⟩, en, hen, hdc⟩ := hc
    exact ⟨j, hj, hjs, b, hb, hbs, en, hen, hdc.symm⟩
  · intro j hj b hb en hen hcold hji hbi hseq
    simp only [walReplayCalls, List.mem_flatMap, List.mem_filter, List.mem_map,
      Bool.not_eq_true']
    refine ⟨j, ⟨hj, ?_⟩, b, ⟨hb, ?_⟩, en, hen, rfl⟩
    · simp only [journalSkip, hcold, Bool.false_or]
      cases hl : j.lastIndex with
      | none => rfl
      | some ji =>
          have := hji ji hl
          simp only [decide_eq_false_iff_not]
          omega
    · simp only [batchSkip]
      cases hl : b.lastIndex with
      | none => rfl
      | some bi =>
          have := hbi bi hl
          simp only [decide_eq_false_iff_not]
          omega

/-- C2 witness: the amended replay theorem applied to the concrete journal
list, dispatching the entry at index 2 with replay seqno 2. -/
theorem C2_replay_batch_granularity_witness :
    ReplayCall.setIndex (8 : Int) (80 : Int) 2 ∈ walReplayCalls journalsC2 2 := by
  have h := (C2_replay_batch_granularity journalsC2 2).2
    { cold := false, lastIndex := some 2,
      batches := [{ lastIndex := some 2,
                    entries := [{ index := 1, op := .set 7 70 },
                                { index := 2, op := .set 8 80 }] }] }
    (by decide)
    { lastIndex := some 2,
      entries := [{ index := 1, op := .set 7 70 },
                  { index := 2, op := .set 8 80 }] }
    (by decide)
    { index := 2, op := .set 8 80 }
    (by decide)
    rfl
    (by intro ji hji
        injection hji with hji
        subst hji
        decide)
    (by intro bi hbi
        injection hbi with hbi
        subst hbi
        decide)
    (by decide)
  exact h

/-- C1: evaluation of the to_entry offset fetch at a concrete two-entry
block.  MBlock::finalize records the second entry at byte 8 of the entries
region (offset table bytes [0,0,0,12, 0,0,0,20], adjust 12), but
MBlock::to_entry and ZBlock::to_entry slice offsets[index..index + 4]
instead of offsets[4*index..4*index + 4], so to_entry(1) decodes the bytes
[0,0,12,0] into offset 3072 and computes entry position 3060 - not the
actual position 8, and past the 52-byte entries region, where the slice
entries[3060..] panics.  The i-th entry is therefore not returned for
i = 1, and the BUBT snapshot round-trip of the claim fails on any block
holding more than one entry. -/
theorem C1_to_entry_offset_bug :
    (blockNewDecode blockC1).count = 2 ∧
    (blockNewDecode blockC1).adjust = 12 ∧
    (blockNewDecode blockC1).entryStartSpec 0 = 0 ∧
    (blockNewDecode blockC1).entryStartSpec 1 = 8 ∧
    (blockNewDecode blockC1).mblockToEntryStart 1 = .ok 3060 ∧
    (blockNewDecode blockC1).zblockToEntryStart 1 = .ok 3060 ∧
    (blockNewDecode blockC1).entries.length = 52 ∧
    (3060 : Nat) ≠ 8 ∧ (52 : Nat) < 3060 := by
  exact ⟨rfl, rfl, rfl, rfl, rfl, rfl, rfl, by decide, by decide⟩

/-- C6: Scenario F - with A holding versions at seqnos 30, 25, 20 and B
(same key) at 15, 10, A.xmerge(B) yields a single entry whose current value
carries seqno 30 and whose deltas sit at seqnos 25, 20, 15, 10 in that
order (five versions in total); and xmerge of entries with overlapping
seqno ranges - the oldest version of the newer entry at or below the newest
version of the older entry - is rejected by the validation with
UnExpectedFail. -/
theorem C6_xmerge_scenario :
    entryA.xmerge intDiff entryB = some (.ok
      { key := 1, value := .u (.native 300) 30,
        deltas := [.u (.native 250) 25, .u (.native 200) 20,
                   .u (.native 150) 15, .u (.native 100) 10] }) ∧
    (∀ (K V D : Type) (df : DiffFns V D) (a b : Entry K V D) (la : Nat),
      b.toSeqno < a.toSeqno →
      a.versionSeqnos.getLast? = some la →
      la ≤ b.toSeqno →
      a.xmerge df b = some (.error .unExpectedFail)) := by
  constructor
  · decide
  · intro K V D df a b la hgt hlast hle
    simp only [Entry.versionSeqnos] at hlast
    have hmem := junction_mem_zip_tail (a.toSeqno :: a.deltas.map CDelta.toSeqno)
      la b.toSeqno (b.deltas.map CDelta.toSeqno) hlast
    have hany : (((a.toSeqno :: a.deltas.map CDelta.toSeqno)
          ++ (b.toSeqno :: b.deltas.map CDelta.toSeqno)).zip
          ((a.toSeqno :: a.deltas.map CDelta.toSeqno)
          ++ (b.toSeqno :: b.deltas.map CDelta.toSeqno)).tail).any
          (fun p => decide (p.1 ≤ p.2)) = true :=
      List.any_eq_true.mpr ⟨(la, b.toSeqno), hmem, by simpa using hle⟩
    have hfail : a.validateXmerge b = .error .unExpectedFail := by
      simp only [Entry.validateXmerge, hany, if_true]
    simp only [Entry.xmerge, hgt, if_true, hfail]

/-- C6 witness: the overlap half applied to concrete entries with ranges
30..10 and 20..15. -/
theorem C6_xmerge_scenario_witness :
    Entry.xmerge intDiff
      { key := (1 : Int), value := .u (.native (300 : Int)) 30,
        deltas := [.u (.native (100 : Int)) 10] }
      { key := 1, value := .u (.native 200) 20, deltas := [.u (.native 150) 15] }
      = some (.error .unExpectedFail) :=
  C6_xmerge_scenario.2 Int Int Int intDiff _ _ 10 (by decide) (by decide) (by decide)

/-- C4 witness: the amended purge theorem applied to a concrete entry with
versions at seqnos 5, 4, 3, 2 and the bound Included(3). -/
theorem C4_purge_lsm_spec_witness :
    (Entry.purge
        { key := (0 : Int), value := .u (.native (5 : Int)) 5,
          deltas := [.u (.native (4 : Int)) 4, .d 3, .u (.native 2) 2] }
        (.lsm (.included 3)) = none ↔
      ∀ s ∈ (Entry.versionSeqnos
        { key := (0 : Int), value := .u (.native (5 : Int)) 5,
          deltas := [.u (.native (4 : Int)) 4, .d 3, .u (.native 2) 2] }),
        boundSat (.included 3) s = true) := by
  have h := C4_purge_lsm_spec
    (e := { key := (0 : Int), value := .u (.native (5 : Int)) 5,
            deltas := [.u (.native (4 : Int)) 4, .d 3, .u (.native 2) 2] })
    (b := .included 3) (by decide) (by decide)
  exact h.1

section TreeLemmas

variable {K V D : Type}

/-- set_black only recolours, so the in-order entry list is unchanged. -/
theorem entries_setBlack (t : Tree K V D) : t.setBlack.entries = t.entries := by
  cases t <;> rfl

/-- flip only toggles colour bits, so the in-order entry list is unchanged. -/
theorem entries_flip (t : Tree K V D) : (Llrb.flip t).entries = t.entries := by
  cases t with
  | leaf => rfl
  | node e b d l r =>
    cases l with
    | leaf => rfl
    | node le lb ld ll lr =>
      cases r with
      | leaf => rfl
      | node re rb rd rl rr => rfl

/-- rotate_left permutes the tree shape but keeps the in-order entry list. -/
theorem entries_rotateLeft (t : Tree K V D) :
    (Llrb.rotateLeft t).entries = t.entries := by
  cases t with
  | leaf => rfl
  | node e b d l r =>
    cases r with
    | leaf => rfl
    | node re rb rd rl rr =>
      cases rb with
      | false => simp [Llrb.rotateLeft, Tree.entries]
      | true => rfl

/-- rotate_right permutes the tree shape but keeps the in-order entry list. -/
theorem entries_rotateRight (t : Tree K V D) :
    (Llrb.rotateRight t).entries = t.entries := by
  cases t with
  | leaf => rfl
  | node e b d l r =>
    cases l with
    | leaf => rfl
    | node le lb ld ll lr =>
      cases lb with
      | false => simp [Llrb.rotateRight, Tree.entries]
      | true => rfl

/-- An entry-preserving transformation applied under a guard preserves
entries. -/
theorem entries_ite (c : Prop) [Decidable c] (f : Tree K V D → Tree K V D)
    (s : Tree K V D) (hf : ∀ u : Tree K V D, (f u).entries = u.entries) :
    (if c then f s else s).entries = s.entries := by
  split
  · exact hf s
  · rfl

/-- walkuprot_23 rebalances without changing the in-order entry list. -/
theorem entries_walkuprot23 (t : Tree K V D) :
    (Llrb.walkuprot23 t).entries = t.entries := by
  unfold Llrb.walkuprot23
  exact (entries_ite _ Llrb.flip _ entries_flip).trans
    ((entries_ite _ Llrb.rotateRight _ entries_rotateRight).trans
      (entries_ite _ Llrb.rotateLeft _ entries_rotateLeft))

end TreeLemmas

section LlrbLemmas

variable {K V D : Type} [LinearOrder K]

/-- delete_lsm on a missing key: no prior entry is reported and the entry
list gains the fresh tombstone at the point where the search ended. -/
theorem deleteLsm_absent (df : DiffFns V D) (t : Tree K V D) (k : K) (s : Nat)
    (h : t.searchKey k = none) :
    (Llrb.deleteLsm df t k s).2 = none ∧
    ∃ pre post, t.entries = pre ++ post ∧
      (Llrb.deleteLsm df t k s).1.entries = pre ++ tombstoneOf df k s :: post := by
  induction t with
  | leaf => exact ⟨rfl, [], [], rfl, rfl⟩
  | node e0 b d l r ihl ihr =>
    rw [Tree.searchKey] at h
    by_cases h1 : k < e0.key
    · rw [if_pos h1] at h
      obtain ⟨h2, pre, post, hsplit, hres⟩ := ihl h
      have hd : Llrb.deleteLsm df (Tree.node e0 b d l r) k s =
          (Llrb.walkuprot23 (.node e0 b d (Llrb.deleteLsm df l k s).1 r),
            (Llrb.deleteLsm df l k s).2) := by
        simp only [Llrb.deleteLsm, if_pos h1]
      rw [hd]
      refine ⟨h2, pre, post ++ e0 :: r.entries, ?_, ?_⟩
      · show l.entries ++ e0 :: r.entries = pre ++ (post ++ e0 :: r.entries)
        rw [hsplit, List.append_assoc]
      · show (Llrb.walkuprot23 (.node e0 b d (Llrb.deleteLsm df l k s).1 r)).entries =
          pre ++ tombstoneOf df k s :: (post ++ e0 :: r.entries)
        rw [entries_walkuprot23]
        show (Llrb.deleteLsm df l k s).1.entries ++ e0 :: r.entries = _
        rw [hres, List.append_assoc, List.cons_append]
    · rw [if_neg h1] at h
      by_cases h2 : e0.key < k
      · rw [if_pos h2] at h
        obtain ⟨h3, pre, post, hsplit, hres⟩ := ihr h
        have hd : Llrb.deleteLsm df (Tree.node e0 b d l r) k s =
            (Llrb.walkuprot23 (.node e0 b d l (Llrb.deleteLsm df r k s).1),
              (Llrb.deleteLsm df r k s).2) := by
          simp only [Llrb.deleteLsm, if_neg h1, if_pos h2]
        rw [hd]
        refine ⟨h3, l.entries ++ e0 :: pre, post, ?_, ?_⟩
        · show l.entries ++ e0 :: r.entries = (l.entries ++ e0 :: pre) ++ post
          rw [hsplit, List.append_assoc, List.cons_append]
        · show (Llrb.walkuprot23 (.node e0 b d l (Llrb.deleteLsm df r k s).1)).entries =
            (l.entries ++ e0 :: pre) ++ tombstoneOf df k s :: post
          rw [entries_walkuprot23]
          show l.entries ++ e0 :: (Llrb.deleteLsm df r k s).1.entries = _
          rw [hres, List.append_assoc, List.cons_append]
      · rw [if_neg h2] at h
        exact absurd h (by simp)

/-- delete_lsm on a present key: the located entry is reported, and in the
entry list exactly that entry is replaced - tombstoned at the new seqno if
it was live, untouched if it already was a tombstone. -/
theorem deleteLsm_found (df : DiffFns V D) (t : Tree K V D) (k : K) (s : Nat)
    (e : Entry K V D) (h : t.searchKey k = some e) :
    (Llrb.deleteLsm df t k s).2 = some e ∧
    ∃ pre post, t.entries = pre ++ e :: post ∧
      (Llrb.deleteLsm df t k s).1.entries =
        pre ++ (if !e.isDeleted then Node.delete df e s else e) :: post := by
  induction t with
  | leaf => exact absurd h (by simp [Tree.searchKey])
  | node e0 b d l r ihl ihr =>
    rw [Tree.searchKey] at h
    by_cases h1 : k < e0.key
    · rw [if_pos h1] at h
      obtain ⟨h2, pre, post, hsplit, hres⟩ := ihl h
      have hd : Llrb.deleteLsm df (Tree.node e0 b d l r) k s =
          (Llrb.walkuprot23 (.node e0 b d (Llrb.deleteLsm df l k s).1 r),
            (Llrb.deleteLsm df l k s).2) := by
        simp only [Llrb.deleteLsm, if_pos h1]
      rw [hd]
      refine ⟨h2, pre, post ++ e0 :: r.entries, ?_, ?_⟩
      · show l.entries ++ e0 :: r.entries = pre ++ e :: (post ++ e0 :: r.entries)
        rw [hsplit, List.append_assoc, List.cons_append]
      · show (Llrb.walkuprot23 (.node e0 b d (Llrb.deleteLsm df l k s).1 r)).entries = _
        rw [entries_walkuprot23]
        show (Llrb.deleteLsm df l k s).1.entries ++ e0 :: r.entries = _
        rw [hres, List.append_assoc, List.cons_append]
    · rw [if_neg h1] at h
      by_cases h2 : e0.key < k
      · rw [if_pos h2] at h
        obtain ⟨h3, pre, post, hsplit, hres⟩ := ihr h
        have hd : Llrb.deleteLsm df (Tree.node e0 b d l r) k s =
            (Llrb.walkuprot23 (.node e0 b d l (Llrb.deleteLsm df r k s).1),
              (Llrb.deleteLsm df r k s).2) := by
          simp only [Llrb.deleteLsm, if_neg h1, if_pos h2]
        rw [hd]
        refine ⟨h3, l.entries ++ e0 :: pre, post, ?_, ?_⟩
        · show l.entries ++ e0 :: r.entries = (l.entries ++ e0 :: pre) ++ e :: post
          rw [hsplit, List.append_assoc, List.cons_append]
        · show (Llrb.walkuprot23 (.node e0 b d l (Llrb.deleteLsm df r k s).1)).entries = _
          rw [entries_walkuprot23]
          show l.entries ++ e0 :: (Llrb.deleteLsm df r k s).1.entries = _
          rw [hres, List.append_assoc, List.cons_append]
      · rw [if_neg h2] at h
        injection h with he
        subst he
        have hd : Llrb.deleteLsm df (Tree.node e0 b d l r) k s =
            (Llrb.walkuprot23
              (.node (if !e0.isDeleted then Node.delete df e0 s else e0) b d l r),
              some e0) := by
          simp only [Llrb.deleteLsm, if_neg h1, if_neg h2]
        rw [hd]
        refine ⟨rfl, l.entries, r.entries, rfl, ?_⟩
        rw [entries_walkuprot23]
        rfl

/-- upsert_cas on a missing key: no prior entry; a positive CAS is rejected
with InvalidCAS and the entry list is unchanged, CAS 0 creates the new
entry at the point where the search ended. -/
theorem upsertCas_absent (df : DiffFns V D) (t : Tree K V D) (ne : Entry K V D)
    (cas : Nat) (lsm : Bool) (h : t.searchKey ne.key = none) :
    (Llrb.upsertCas df t ne cas lsm).2.1 = none ∧
    (Llrb.upsertCas df t ne cas lsm).2.2 =
      (if cas > 0 then some RdmsError.invalidCAS else none) ∧
    (if cas > 0 then (Llrb.upsertCas df t ne cas lsm).1.entries = t.entries
     else ∃ pre post, t.entries = pre ++ post ∧
       (Llrb.upsertCas df t ne cas lsm).1.entries = pre ++ ne :: post) := by
  induction t with
  | leaf =>
    by_cases hcas : cas > 0
    · have hd : Llrb.upsertCas df (Tree.leaf : Tree K V D) ne cas lsm =
          (.leaf, none, some .invalidCAS) := by
        simp only [Llrb.upsertCas, if_pos hcas]
      rw [hd, if_pos hcas, if_pos hcas]
      exact ⟨rfl, rfl, rfl⟩
    · have hd : Llrb.upsertCas df (Tree.leaf : Tree K V D) ne cas lsm =
          (nodeFrom ne, none, none) := by
        simp only [Llrb.upsertCas, if_neg hcas]
      rw [hd, if_neg hcas, if_neg hcas]
      exact ⟨rfl, rfl, [], [], rfl, rfl⟩
  | node e0 b d l r ihl ihr =>
    rw [Tree.searchKey] at h
    by_cases h1 : ne.key < e0.key
    · rw [if_pos h1] at h
      obtain ⟨ih1, ih2, ih3⟩ := ihl h
      have hd : Llrb.upsertCas df (Tree.node e0 b d l r) ne cas lsm =
          (Llrb.walkuprot23 (.node e0 b d (Llrb.upsertCas df l ne cas lsm).1 r),
            (Llrb.upsertCas df l ne cas lsm).2.1,
            (Llrb.upsertCas df l ne cas lsm).2.2) := by
        simp only [Llrb.upsertCas, if_pos h1]
      rw [hd]
      refine ⟨ih1, ih2, ?_⟩
      by_cases hcas : cas > 0
      · rw [if_pos hcas] at ih3 ⊢
        show (Llrb.walkuprot23 (.node e0 b d (Llrb.upsertCas df l ne cas lsm).1 r)).entries = _
        rw [entries_walkuprot23]
        show (Llrb.upsertCas df l ne cas lsm).1.entries ++ e0 :: r.entries = _
        rw [ih3]
        rfl
      · rw [if_neg hcas] at ih3 ⊢
        obtain ⟨pre, post, hsplit, hres⟩ := ih3
        refine ⟨pre, post ++ e0 :: r.entries, ?_, ?_⟩
        · show l.entries ++ e0 :: r.entries = pre ++ (post ++ e0 :: r.entries)
          rw [hsplit, List.append_assoc]
        · show (Llrb.walkuprot23 (.node e0 b d (Llrb.upsertCas df l ne cas lsm).1 r)).entries = _
          rw [entries_walkuprot23]
          show (Llrb.upsertCas df l ne cas lsm).1.entries ++ e0 :: r.entries = _
          rw [hres, List.append_assoc, List.cons_append]
    · rw [if_neg h1] at h
      by_cases h2 : e0.key < ne.key
      · rw [if_pos h2] at h
        obtain ⟨ih1, ih2, ih3⟩ := ihr h
        have hd : Llrb.upsertCas df (Tree.node e0 b d l r) ne cas lsm =
            (Llrb.walkuprot23 (.node e0 b d l (Llrb.upsertCas df r ne cas lsm).1),
              (Llrb.upsertCas df r ne cas lsm).2.1,
              (Llrb.upsertCas df r ne cas lsm).2.2) := by
          simp only [Llrb.upsertCas, if_neg h1, if_pos h2]
        rw [hd]
        refine ⟨ih1, ih2, ?_⟩
        by_cases hcas : cas > 0
        · rw [if_pos hcas] at ih3 ⊢
          show (Llrb.walkuprot23 (.node e0 b d l (Llrb.upsertCas df r ne cas lsm).1)).entries = _
          rw [entries_walkuprot23]
          show l.entries ++ e0 :: (Llrb.upsertCas df r ne cas lsm).1.entries = _
          rw [ih3]
          rfl
        · rw [if_neg hcas] at ih3 ⊢
          obtain ⟨pre, post, hsplit, hres⟩ := ih3
          refine ⟨l.entries ++ e0 :: pre, post, ?_, ?_⟩
          · show l.entries ++ e0 :: r.entries = (l.entries ++ e0 :: pre) ++ post
            rw [hsplit, List.append_assoc, List.cons_append]
          · show (Llrb.walkuprot23 (.node e0 b d l (Llrb.upsertCas df r ne cas lsm).1)).entries = _
            rw [entries_walkuprot23]
            show l.entries ++ e0 :: (Llrb.upsertCas df r ne cas lsm).1.entries = _
            rw [hres, List.append_assoc, List.cons_append]
      · rw [if_neg h2] at h
        exact absurd h (by simp)

/-- upsert_cas on a present key: the CAS is checked against the located
entry (casInvalid); on rejection the entry list is unchanged and InvalidCAS
is reported, else the located entry is replaced by the version-prepended
one and returned as the prior entry. -/
theorem upsertCas_found (df : DiffFns V D) (t : Tree K V D) (ne : Entry K V D)
    (cas : Nat) (lsm : Bool) (e : Entry K V D) (h : t.searchKey ne.key = some e) :
    (Llrb.upsertCas df t ne cas lsm).2.1 = (if casInvalid e cas then none else some e) ∧
    (Llrb.upsertCas df t ne cas lsm).2.2 =
      (if casInvalid e cas then some RdmsError.invalidCAS else none) ∧
    (if casInvalid e cas then (Llrb.upsertCas df t ne cas lsm).1.entries = t.entries
     else ∃ pre post, t.entries = pre ++ e :: post ∧
       (Llrb.upsertCas df t ne cas lsm).1.entries =
         pre ++ Node.prependVersion df e ne lsm :: post) := by
  induction t with
  | leaf => exact absurd h (by simp [Tree.searchKey])
  | node e0 b d l r ihl ihr =>
    rw [Tree.searchKey] at h
    by_cases h1 : ne.key < e0.key
    · rw [if_pos h1] at h
      obtain ⟨ih1, ih2, ih3⟩ := ihl h
      have hd : Llrb.upsertCas df (Tree.node e0 b d l r) ne cas lsm =
          (Llrb.walkuprot23 (.node e0 b d (Llrb.upsertCas df l ne cas lsm).1 r),
            (Llrb.upsertCas df l ne cas lsm).2.1,
            (Llrb.upsertCas df l ne cas lsm).2.2) := by
        simp only [Llrb.upsertCas, if_pos h1]
      rw [hd]
      refine ⟨ih1, ih2, ?_⟩
      by_cases hci : casInvalid e cas = true
      · rw [if_pos hci] at ih3 ⊢
        show (Llrb.walkuprot23 (.node e0 b d (Llrb.upsertCas df l ne cas lsm).1 r)).entries = _
        rw [entries_walkuprot23]
        show (Llrb.upsertCas df l ne cas lsm).1.entries ++ e0 :: r.entries = _
        rw [ih3]
        rfl
      · rw [if_neg hci] at ih3 ⊢
        obtain ⟨pre, post, hsplit, hres⟩ := ih3
        refine ⟨pre, post ++ e0 :: r.entries, ?_, ?_⟩
        · show l.entries ++ e0 :: r.entries = pre ++ e :: (post ++ e0 :: r.entries)
          rw [hsplit, List.append_assoc, List.cons_append]
        · show (Llrb.walkuprot23 (.node e0 b d (Llrb.upsertCas df l ne cas lsm).1 r)).entries = _
          rw [entries_walkuprot23]
          show (Llrb.upsertCas df l ne cas lsm).1.entries ++ e0 :: r.entries = _
          rw [hres, List.append_assoc, List.cons_append]
    · rw [if_neg h1] at h
      by_cases h2 : e0.key < ne.key
      · rw [if_pos h2] at h
        obtain ⟨ih1, ih2, ih3⟩ := ihr h
        have hd : Llrb.upsertCas df (Tree.node e0 b d l r) ne cas lsm =
            (Llrb.walkuprot23 (.node e0 b d l (Llrb.upsertCas df r ne cas lsm).1),
              (Llrb.upsertCas df r ne cas lsm).2.1,
              (Llrb.upsertCas df r ne cas lsm).2.2) := by
          simp only [Llrb.upsertCas, if_neg h1, if_pos h2]
        rw [hd]
        refine ⟨ih1, ih2, ?_⟩
        by_cases hci : casInvalid e cas = true
        · rw [if_pos hci] at ih3 ⊢
          show (Llrb.walkuprot23 (.node e0 b d l (Llrb.upsertCas df r ne cas lsm).1)).entries = _
          rw [entries_walkuprot23]
          show l.entries ++ e0 :: (Llrb.upsertCas df r ne cas lsm).1.entries = _
          rw [ih3]
          rfl
        · rw [if_neg hci] at ih3 ⊢
          obtain ⟨pre, post, hsplit, hres⟩ := ih3
          refine ⟨l.entries ++ e0 :: pre, post, ?_, ?_⟩
          · show l.entries ++ e0 :: r.entries = (l.entries ++ e0 :: pre) ++ e :: post
            rw [hsplit, List.append_assoc, List.cons_append]
          · show (Llrb.walkuprot23 (.node e0 b d l (Llrb.upsertCas df r ne cas lsm).1)).entries = _
            rw [entries_walkuprot23]
            show l.entries ++ e0 :: (Llrb.upsertCas df r ne cas lsm).1.entries = _
            rw [hres, List.append_assoc, List.cons_append]
      · rw [if_neg h2] at h
        injection h with he
        subst he
        by_cases hg1 : (e0.isDeleted && decide (cas ≠ 0) && decide (cas ≠ e0.toSeqno)) = true
        · have hci : casInvalid e0 cas = true := by
            unfold casInvalid; rw [hg1, Bool.true_or]
          have hd : Llrb.upsertCas df (Tree.node e0 b d l r) ne cas lsm =
              (Llrb.walkuprot23 (.node e0 b d l r), none, some .invalidCAS) := by
            simp only [Llrb.upsertCas, if_neg h1, if_neg h2, if_pos hg1]
          rw [hd, hci]
          refine ⟨rfl, rfl, ?_⟩
          rw [if_pos rfl, entries_walkuprot23]
        · by_cases hg2 : (!e0.isDeleted && decide (cas ≠ e0.toSeqno)) = true
          · have hci : casInvalid e0 cas = true := by
              unfold casInvalid
              rw [Bool.eq_false_iff.mpr hg1, hg2, Bool.false_or]
            have hd : Llrb.upsertCas df (Tree.node e0 b d l r) ne cas lsm =
                (Llrb.walkuprot23 (.node e0 b d l r), none, some .invalidCAS) := by
              simp only [Llrb.upsertCas, if_neg h1, if_neg h2, if_neg hg1, if_pos hg2]
            rw [hd, hci]
            refine ⟨rfl, rfl, ?_⟩
            rw [if_pos rfl, entries_walkuprot23]
          · have hci : casInvalid e0 cas = false := by
              unfold casInvalid
              rw [Bool.eq_false_iff.mpr hg1, Bool.eq_false_iff.mpr hg2, Bool.false_or]
            have hd : Llrb.upsertCas df (Tree.node e0 b d l r) ne cas lsm =
                (Llrb.walkuprot23 (.node (Node.prependVersion df e0 ne lsm) b d l r),
                  some e0, none) := by
              simp only [Llrb.upsertCas, if_neg h1, if_neg h2, if_neg hg1, if_neg hg2]
            rw [hd, hci]
            refine ⟨rfl, rfl, ?_⟩
            rw [if_neg (by simp)]
            refine ⟨l.entries, r.entries, rfl, ?_⟩
            rw [entries_walkuprot23]
            rfl

end LlrbLemmas

section ClaimC7

variable {K V D : Type} [LinearOrder K]

/-- C7: in LSM mode, Llrb::delete on a key whose entry is already a
tombstone returns the existing entry, leaves the entry list (hence that
entry's version chain) and the index seqno and count unchanged; a delete
of a live entry returns it, advances the seqno and replaces exactly that
entry by its tombstoned version. -/
theorem C7_delete_tombstone_noop (df : DiffFns V D) (z : Llrb K V D)
    (k : K) (e : Entry K V D) (hz : z.lsm = true)
    (hfind : z.root.searchKey k = some e) :
    ∃ z2, Llrb.deleteOp df z k = some (z2, some e) ∧
      (e.isDeleted = true → z2.seqno = z.seqno ∧ z2.nCount = z.nCount ∧
        z2.root.entries = z.root.entries) ∧
      (e.isDeleted = false → z2.seqno = z.seqno + 1 ∧
        ∃ pre post, z.root.entries = pre ++ e :: post ∧
          z2.root.entries = pre ++ Node.delete df e (z.seqno + 1) :: post) := by
  obtain ⟨h2, pre, post, hsplit, hentries⟩ :=
    deleteLsm_found df z.root k (z.seqno + 1) e hfind
  by_cases hdel : e.isDeleted = true
  · have hop : Llrb.deleteOp df z k =
        some ({ z with
          root := (Llrb.deleteLsm df z.root k (z.seqno + 1)).1.setBlack }, some e) := by
      simp only [Llrb.deleteOp]
      rw [if_pos hz, h2]
      simp [hdel]
    refine ⟨_, hop, fun _ => ⟨rfl, rfl, ?_⟩, fun hf => absurd hdel (by rw [hf]; simp)⟩
    show (Llrb.deleteLsm df z.root k (z.seqno + 1)).1.setBlack.entries = z.root.entries
    rw [entries_setBlack, hentries, hdel, hsplit]
    simp
  · have hdelf : e.isDeleted = false := Bool.eq_false_iff.mpr hdel
    have hop : Llrb.deleteOp df z k =
        some ({ z with
          root := (Llrb.deleteLsm df z.root k (z.seqno + 1)).1.setBlack,
          seqno := z.seqno + 1 }, some e) := by
      simp only [Llrb.deleteOp]
      rw [if_pos hz, h2]
      simp [hdelf]
    refine ⟨_, hop, fun ht => absurd ht hdel, fun _ => ⟨rfl, pre, post, hsplit, ?_⟩⟩
    show (Llrb.deleteLsm df z.root k (z.seqno + 1)).1.setBlack.entries = _
    rw [entries_setBlack, hentries, hdelf]
    simp

end ClaimC7

/-- C7 witness: the theorem applied to the concrete lsm index zC7d whose
single entry is a tombstone at seqno 2. -/
theorem C7_delete_tombstone_noop_witness :
    ∃ z2, Llrb.deleteOp intDiff zC7d 1 = some (z2, some entryC7d) ∧
      (entryC7d.isDeleted = true → z2.seqno = zC7d.seqno ∧ z2.nCount = zC7d.nCount ∧
        z2.root.entries = zC7d.root.entries) ∧
      (entryC7d.isDeleted = false → z2.seqno = zC7d.seqno + 1 ∧
        ∃ pre post, zC7d.root.entries = pre ++ entryC7d :: post ∧
          z2.root.entries = pre ++ Node.delete intDiff entryC7d (zC7d.seqno + 1) :: post) :=
  C7_delete_tombstone_noop intDiff zC7d 1 entryC7d rfl rfl

section ClaimC3

variable {K V D : Type} [LinearOrder K]

/-- C3 (amended): set_cas returns InvalidCAS exactly when casRejects holds
of the searched entry - on a missing key any non-zero CAS, on a live entry
a CAS different from the entry seqno, on a tombstoned entry a CAS that is
neither 0 nor the entry seqno (the original claim wrongly rejects CAS 0 on
a tombstone); on rejection the seqno is unchanged, on success the prior
entry is returned, the seqno advances, and the new value is stored at the
located position. -/
theorem C3_set_cas_spec (df : DiffFns V D) (z : Llrb K V D) (k : K) (v : V)
    (cas : Nat) (found : Option (Entry K V D))
    (hfind : z.root.searchKey k = found) :
    ((Llrb.setCas df z k v cas).2 = .error .invalidCAS ↔ casRejects found cas = true) ∧
    (casRejects found cas = true → (Llrb.setCas df z k v cas).1.seqno = z.seqno) ∧
    (casRejects found cas = false →
      (Llrb.setCas df z k v cas).2 = .ok found ∧
      (Llrb.setCas df z k v cas).1.seqno = z.seqno + 1 ∧
      ∃ pre post, z.root.entries = priorDecomp found pre post ∧
        (Llrb.setCas df z k v cas).1.root.entries =
          pre ++ updatedEntry df found
            { key := k, value := .u (.native v) (z.seqno + 1), deltas := [] }
            z.lsm :: post) := by
  cases found with
  | none =>
    obtain ⟨h1, h2, h3⟩ := upsertCas_absent df z.root
      ⟨k, .u (.native v) (z.seqno + 1), []⟩ cas z.lsm hfind
    by_cases hcas : cas > 0
    · rw [if_pos hcas] at h2 h3
      have hu : Llrb.upsertCas df z.root ⟨k, .u (.native v) (z.seqno + 1), []⟩ cas z.lsm =
          ((Llrb.upsertCas df z.root ⟨k, .u (.native v) (z.seqno + 1), []⟩ cas z.lsm).1,
            none, some .invalidCAS) := by
        rw [← h1, ← h2]
      have hset : Llrb.setCas df z k v cas =
          ({ z with root := (Llrb.upsertCas df z.root
              ⟨k, .u (.native v) (z.seqno + 1), []⟩ cas z.lsm).1 },
            .error .invalidCAS) := by
        simp only [Llrb.setCas]
        rw [hu]
        try rfl
      rw [hset]
      refine ⟨⟨fun _ => ?_, fun _ => rfl⟩, fun _ => rfl, fun hf => ?_⟩
      · show casRejects none cas = true
        simp [casRejects, hcas]
      · exfalso
        have : casRejects (none : Option (Entry K V D)) cas = true := by
          simp [casRejects, hcas]
        rw [hf] at this
        exact Bool.false_ne_true this
    · rw [if_neg hcas] at h2 h3
      obtain ⟨pre, post, hsplit, hres⟩ := h3
      have hu : Llrb.upsertCas df z.root ⟨k, .u (.native v) (z.seqno + 1), []⟩ cas z.lsm =
          ((Llrb.upsertCas df z.root ⟨k, .u (.native v) (z.seqno + 1), []⟩ cas z.lsm).1,
            none, none) := by
        rw [← h1, ← h2]
      have hset : Llrb.setCas df z k v cas =
          ({ z with
             root := (Llrb.upsertCas df z.root ⟨k, .u (.native v) (z.seqno + 1), []⟩ cas z.lsm).1.setBlack,
             seqno := z.seqno + 1, nCount := z.nCount + 1 }, .ok none) := by
        simp only [Llrb.setCas]
        rw [hu]
        try rfl
      rw [hset]
      refine ⟨iff_of_false (by simp) ?_, fun ht => ?_, fun _ => ⟨rfl, rfl, pre, post, hsplit, ?_⟩⟩
      · intro ht
        have : decide (cas > 0) = true := ht
        exact hcas (of_decide_eq_true this)
      · exfalso
        have : decide (cas > 0) = true := ht
        exact hcas (of_decide_eq_true this)
      · show (Llrb.upsertCas df z.root
            ⟨k, .u (.native v) (z.seqno + 1), []⟩ cas z.lsm).1.setBlack.entries = _
        rw [entries_setBlack]
        exact hres
  | some e =>
    obtain ⟨h1, h2, h3⟩ := upsertCas_found df z.root
      ⟨k, .u (.native v) (z.seqno + 1), []⟩ cas z.lsm e hfind
    by_cases hci : casInvalid e cas = true
    · rw [if_pos hci] at h1 h2 h3
      have hu : Llrb.upsertCas df z.root ⟨k, .u (.native v) (z.seqno + 1), []⟩ cas z.lsm =
          ((Llrb.upsertCas df z.root ⟨k, .u (.native v) (z.seqno + 1), []⟩ cas z.lsm).1,
            none, some .invalidCAS) := by
        rw [← h1, ← h2]
      have hset : Llrb.setCas df z k v cas =
          ({ z with root := (Llrb.upsertCas df z.root
              ⟨k, .u (.native v) (z.seqno + 1), []⟩ cas z.lsm).1 },
            .error .invalidCAS) := by
        simp only [Llrb.setCas]
        rw [hu]
        try rfl
      rw [hset]
      refine ⟨⟨fun _ => hci, fun _ => rfl⟩, fun _ => rfl, fun hf => ?_⟩
      exfalso
      rw [show casRejects (some e) cas = casInvalid e cas from rfl, hci] at hf
      exact Bool.noConfusion hf
    · have hcif : casInvalid e cas = false := Bool.eq_false_iff.mpr hci
      rw [if_neg hci] at h1 h2 h3
      obtain ⟨pre, post, hsplit, hres⟩ := h3
      have hu : Llrb.upsertCas df z.root ⟨k, .u (.native v) (z.seqno + 1), []⟩ cas z.lsm =
          ((Llrb.upsertCas df z.root ⟨k, .u (.native v) (z.seqno + 1), []⟩ cas z.lsm).1,
            some e, none) := by
        rw [← h1, ← h2]
      have hset : Llrb.setCas df z k v cas =
          ({ z with
             root := (Llrb.upsertCas df z.root ⟨k, .u (.native v) (z.seqno + 1), []⟩ cas z.lsm).1.setBlack,
             seqno := z.seqno + 1, nCount := z.nCount }, .ok (some e)) := by
        simp only [Llrb.setCas]
        rw [hu]
        try rfl
      rw [hset]
      refine ⟨iff_of_false (by simp) ?_, fun ht => ?_, fun _ => ⟨rfl, rfl, pre, post, hsplit, ?_⟩⟩
      · intro ht
        rw [show casRejects (some e) cas = casInvalid e cas from rfl, hcif] at ht
        exact Bool.false_ne_true ht
      · exfalso
        rw [show casRejects (some e) cas = casInvalid e cas from rfl, hcif] at ht
        exact Bool.false_ne_true ht
      · show (Llrb.upsertCas df z.root
            ⟨k, .u (.native v) (z.seqno + 1), []⟩ cas z.lsm).1.setBlack.entries = _
        rw [entries_setBlack]
        exact hres

end ClaimC3

/-- C3 witness: the theorem applied to the concrete lsm index zC7d holding
a tombstone at seqno 2, with CAS 0: the call is accepted and the seqno
advances to 3. -/
theorem C3_set_cas_spec_witness :
    (Llrb.setCas intDiff zC7d 1 200 0).2 = .ok (some entryC7d) ∧
    (Llrb.setCas intDiff zC7d 1 200 0).1.seqno = 3 := by
  have h := C3_set_cas_spec intDiff zC7d 1 200 0 (some entryC7d) rfl
  have h3 := h.2.2 (by decide)
  exact ⟨h3.1, h3.2.1⟩

/-- C3 counterexample: in the lsm index zC7d key 1 is present with current
seqno 2; the claim then demands InvalidCAS for cas = 0 (0 differs from 2),
yet set_cas succeeds, because the tombstone arm of upsert_cas also accepts
CAS 0. -/
theorem C3_counterexample_tombstone_cas_zero :
    zC7d.root.searchKey 1 = some entryC7d ∧
    entryC7d.toSeqno = 2 ∧
    (Llrb.setCas intDiff zC7d 1 200 0).2 ≠ .error RdmsError.invalidCAS := by
  refine ⟨rfl, rfl, ?_⟩
  decide

section ClaimC8

variable {K V D : Type} [LinearOrder K]

/-- C8 (amended): after set_cas returns an error the seqno is indeed
unchanged, but a completed delete always advances the seqno by one - for
an absent key in lsm mode a tombstone is created, and in non-lsm mode the
seqno is bumped whether or not anything was removed; the original claim
that delete of an absent key leaves the seqno unchanged is false. -/
theorem C8_failed_mutation_seqno (df : DiffFns V D) (z : Llrb K V D)
    (k : K) (v : V) (cas : Nat) (err : RdmsError)
    (hErr : (Llrb.setCas df z k v cas).2 = .error err)
    (hAbs : z.root.searchKey k = none) :
    (Llrb.setCas df z k v cas).1.seqno = z.seqno ∧
    ∀ z2 res, Llrb.deleteOp df z k = some (z2, res) → z2.seqno = z.seqno + 1 := by
  constructor
  · rcases hu : Llrb.upsertCas df z.root ⟨k, .u (.native v) (z.seqno + 1), []⟩ cas z.lsm
      with ⟨root, entry, errOpt⟩
    cases errOpt with
    | some err2 =>
      have hset : Llrb.setCas df z k v cas = ({ z with root := root }, .error err2) := by
        simp only [Llrb.setCas]
        rw [hu]
        try rfl
      rw [hset]
    | none =>
      exfalso
      have hset : Llrb.setCas df z k v cas =
          ({ z with
             root := root.setBlack, seqno := z.seqno + 1,
             nCount := if entry.isNone then z.nCount + 1 else z.nCount }, .ok entry) := by
        simp only [Llrb.setCas]
        rw [hu]
        try rfl
      rw [hset] at hErr
      simp at hErr
  · intro z2 res hdel
    by_cases hz : z.lsm = true
    · have h2 := (deleteLsm_absent df z.root k (z.seqno + 1) hAbs).1
      have hop : Llrb.deleteOp df z k =
          some ({ z with
                  root := (Llrb.deleteLsm df z.root k (z.seqno + 1)).1.setBlack,
                  nCount := z.nCount + 1, seqno := z.seqno + 1 }, none) := by
        simp only [Llrb.deleteOp]
        rw [if_pos hz, h2]
      rw [hop] at hdel
      injection hdel with h
      injection h with ha hb
      rw [← ha]
    · rcases hdo : Llrb.doDelete (z.root.size + 1) z.root k with _ | ⟨root2, entry2⟩
      · have hop : Llrb.deleteOp df z k = none := by
          simp only [Llrb.deleteOp]
          rw [if_neg hz, hdo]
        rw [hop] at hdel
        exact absurd hdel (by simp)
      · have hop : Llrb.deleteOp df z k =
            some ({ z with
                    root := root2.setBlack,
                    nCount := if entry2.isSome then z.nCount - 1 else z.nCount,
                    seqno := z.seqno + 1 }, entry2) := by
          simp only [Llrb.deleteOp]
          rw [if_neg hz, hdo]
        rw [hop] at hdel
        injection hdel with h
        injection h with ha hb
        rw [← ha]

end ClaimC8

/-- C8 witness: on a fresh non-lsm index, a set_cas with CAS 1 errors and
leaves the seqno at 0, while delete of the absent key 10 completes and
bumps the seqno to 1. -/
theorem C8_failed_mutation_seqno_witness :
    (Llrb.setCas intDiff (Llrb.new "w" : Llrb Nat Int Int) 10 5 1).1.seqno = 0 ∧
    ({ name := "w", lsm := false, root := .leaf, seqno := 1, nCount := 0 } :
      Llrb Nat Int Int).seqno = 0 + 1 := by
  have h := C8_failed_mutation_seqno intDiff (Llrb.new "w" : Llrb Nat Int Int)
    10 5 1 .invalidCAS rfl rfl
  exact ⟨h.1, h.2 _ none rfl⟩

/-- C8 counterexample: delete of a key absent from a fresh non-lsm index
returns no entry yet advances the seqno from 0 to 1, contradicting the
claim that such a delete leaves get_seqno unchanged. -/
theorem C8_counterexample_absent_delete :
    (Llrb.new "t" : Llrb Nat Int Int).seqno = 0 ∧
    (Llrb.deleteOp intDiff (Llrb.new "t" : Llrb Nat Int Int) 10).map
      (fun p => (p.1.seqno, p.2.isSome)) = some (1, false) :=
  ⟨rfl, rfl⟩

end Rdms
